import Mathlib

/-!
Verification of the TNN ARM argmax/argmin kernel
(`source/tnn/device/arm/acc/arm_arg_max_or_min_layer_acc.cc`).

The kernel reduces a 4-D tensor (N, C, H, W) stored with the channel
dimension packed in groups of 4 lanes, along one of the four axes,
writing winning indices into the output buffer.

Shallow embedding: element values are modelled as `Int` (the code only
compares and copies them), memory as `Nat → Int`, the SIMD `Float4`
register as a lane function, and the C loops as left folds over
`List.range`.
-/

namespace TNNArg

/-- Flat memory holding tensor elements (values modelled as integers). -/
abbrev Mem := Nat → Int

/-- `for (k = 0; k < n; ++k) acc = f acc k`. -/
def foldRange {α : Type} (f : α → Nat → α) (init : α) (n : Nat) : α :=
  (List.range n).foldl f init

/-- A 4-lane SIMD register; only lanes 0..3 are meaningful
    (`load`/`store` touch exactly lanes 0..3 of memory). -/
def Float4 := Nat → Int

/-- `Float4 x` broadcast constructor (e.g. `Float4 cur_index(r)`). -/
def Float4.splat (x : Int) : Float4 := fun _ => x

/-- `Float4::load(ptr)`. -/
def Float4.load (m : Mem) (p : Nat) : Float4 := fun l => m (p + l)

/-- `Float4::save(ptr, v)`: writes lanes 0..3 at addresses `p..p+3`. -/
def Float4.store (m : Mem) (p : Nat) (v : Float4) : Mem :=
  fun q => if p ≤ q ∧ q < p + 4 then v (q - p) else m q

/-- `Float4::bsl_clt(a, b, c, d)`: lanewise `a < b ? c : d`. -/
def Float4.bsl_clt (a b c d : Float4) : Float4 :=
  fun l => if a l < b l then c l else d l

/-- `Float4::bsl_cgt(a, b, c, d)`: lanewise `a > b ? c : d`. -/
def Float4.bsl_cgt (a b c d : Float4) : Float4 :=
  fun l => if b l < a l then c l else d l

/-- `Float4::min`. -/
def Float4.fmin (a b : Float4) : Float4 := fun l => min (a l) (b l)

/-- `Float4::max`. -/
def Float4.fmax (a b : Float4) : Float4 := fun l => max (a l) (b l)

/-- `v.set_lane(x, l)`. -/
def Float4.set_lane (v : Float4) (x : Int) (l : Nat) : Float4 :=
  fun q => if q = l then x else v q

/-! ### The spec-side notion of "better" and of a naive scan winner -/

/-- `mode = 0` seeks the minimum, any other mode the maximum:
    `Better mode a b` means candidate value `a` strictly beats running
    value `b`. -/
def Better (mode : Nat) (a b : Int) : Prop :=
  if mode == 0 then a < b else b < a

instance (mode : Nat) (a b : Int) : Decidable (Better mode a b) := by
  unfold Better
  split <;> infer_instance

/-- Spec-side characterisation: `j` is the index a naive linear scan over
    the positions satisfying `S` finds — `j` attains the extreme value over
    `S` and every earlier position of `S` is strictly worse
    (ties resolved to the smallest index). -/
def ArgBestOn (mode : Nat) (vals : Nat → Int) (S : Nat → Prop) (j : Nat) : Prop :=
  S j ∧ (∀ k, S k → ¬ Better mode (vals k) (vals j)) ∧
    (∀ k, S k → k < j → Better mode (vals j) (vals k))

/-- Spec-side naive scan (from the spec text, not from the code): walk the
    `len` positions in increasing order keeping the current best index,
    replacing it only on a strictly better value — so the extreme value's
    smallest index wins. -/
def naiveArgExt (mode : Nat) (vals : Nat → Int) (len : Nat) : Nat :=
  (List.range len).foldl
    (fun best k => if Better mode (vals k) (vals best) then k else best) 0

/-! ### Embedding of the kernel (from the source) -/

/-- The scalar body of the running-compare loop shared by every strategy:
    replace the running `(index, value)` pair by `(r, cv)` iff the
    candidate value `cv` strictly beats the running value. -/
def argStep (mode : Nat) (s : Int × Int) (r : Nat) (cv : Int) : Int × Int :=
  if (if mode == 0 then cv < s.2 else s.2 < cv) then ((r : Int), cv) else s

/-- Scalar running-compare fold along one reduction window:
    start from `(0, vals 0)` and apply `argStep` for `r = 1 .. len-1`. -/
def argPair (mode : Nat) (vals : Nat → Int) (len : Nat) : Int × Int :=
  foldRange (fun s rm => argStep mode s (rm + 1) (vals (rm + 1)))
    ((0 : Int), vals 0) (len - 1)

/-- The `ExecWithoutWorkspace` macro, minus the final save: registers
    `guard_index = Float4(0)`, `guard_value = load(base)`, then for
    `r = 1 .. reduce_dim-1` blend-select against `load(base + r*outer_dim)`;
    returns `(guard_index, guard_value)`. -/
def execNoWorkspace (mem : Mem) (base : Nat) (reduceDim outerDim mode : Nat) :
    Float4 × Float4 :=
  foldRange (fun g rm =>
    let r := rm + 1
    let curIndex := Float4.splat (r : Int)
    let curValue := Float4.load mem (base + r * outerDim)
    if mode == 0 then
      (Float4.bsl_clt curValue g.2 curIndex g.1, Float4.fmin curValue g.2)
    else
      (Float4.bsl_cgt curValue g.2 curIndex g.1, Float4.fmax curValue g.2))
    (Float4.splat 0, Float4.load mem base) (reduceDim - 1)

/-- `ExecDimW`: width-axis reduction. `inner = N * ceil(C/4) * H`,
    `reduce = W`, `outer = 4`; per inner index run the register fold on the
    contiguous window and save `guard_index`. -/
def execDimW (mode : Nat) (inp : Mem) (n c h w : Nat) (out0 : Mem) : Mem :=
  let innerDim := n * ((c + 3) / 4) * h
  let reduceDim := w
  let outerDim := 4
  foldRange (fun out i =>
    let g := execNoWorkspace inp (i * reduceDim * outerDim) reduceDim outerDim mode
    Float4.store out (i * outerDim) g.1) out0 innerDim

/-- One iteration of `CompareC4`'s loop at lane `c = start + t`: the
    lane's composite index is `guard_index[c]*4 + c`; replace the running
    `(value_final, index_final)` on a strictly better value, or on an
    equal value with a smaller composite index. -/
def compareC4Step (mode : Nat) (guardValue guardIndex : Float4) (start : Nat)
    (s : Int × Int) (t : Nat) : Int × Int :=
  let c := start + t
  let gv := guardValue c
  let gi := guardIndex c * 4 + (c : Int)
  if mode == 0 then
    if gv < s.1 then (gv, gi)
    else if gv = s.1 ∧ gi < s.2 then (s.1, gi) else s
  else
    if s.1 < gv then (gv, gi)
    else if gv = s.1 ∧ gi < s.2 then (s.1, gi) else s

/-- `CompareC4`: scalar horizontal resolution over lanes
    `c = start .. end-1`. -/
def compareC4 (mode : Nat) (guardValue guardIndex : Float4) (start stop : Nat)
    (s0 : Int × Int) : Int × Int :=
  foldRange (compareC4Step mode guardValue guardIndex start) s0 (stop - start)

/-- The per-output-group body of `ExecDimC` at input pointer `p`
    (group stride `od`): register fold over the `reduce_dim_c4` full
    groups, lane 0's candidate as the initial `(value_final, index_final)`,
    horizontal `CompareC4` over lanes 1..3 when there is a full group,
    then `CompareC4` over the partial group's `C mod 4` valid lanes. -/
def dimCBlock (mode : Nat) (inp : Mem) (c od p : Nat) : Int × Int :=
  let reduceDim := (c + 3) / 4
  let reduceDimR4 := c % 4
  let reduceDimC4 := if reduceDimR4 == 0 then reduceDim else reduceDim - 1
  let g := execNoWorkspace inp p reduceDimC4 od mode
  let valueFinal := g.2 0
  let indexFinal := g.1 0 * 4
  let s1 := if reduceDimC4 ≠ 0 then
      compareC4 mode g.2 g.1 1 4 (valueFinal, indexFinal)
    else (valueFinal, indexFinal)
  if reduceDimR4 ≠ 0 then
    compareC4 mode (Float4.load inp (p + reduceDimC4 * od))
      (Float4.splat (reduceDimC4 : Int)) 0 reduceDimR4 s1
  else s1

/-- `ExecDimC`: channel-axis reduction. `inner = N`,
    `reduce = ceil(C/4)` packed groups, `outer = H*W*4`. Per output group:
    resolve the channel winner with `dimCBlock` and store its index in
    lane 0 of a zeroed result vector. -/
def execDimC (mode : Nat) (inp : Mem) (n c h w : Nat) (out0 : Mem) : Mem :=
  let innerDim := n
  let reduceDim := (c + 3) / 4
  let outerDim := h * w * 4
  foldRange (fun outI i =>
    foldRange (fun out b =>
      let o := 4 * b
      let p := i * reduceDim * outerDim + o
      let q := i * outerDim + o
      let s2 := dimCBlock mode inp c outerDim p
      Float4.store out q (Float4.set_lane (Float4.splat 0) s2.2 0)) outI (outerDim / 4))
    out0 innerDim

/-- One `o`-block body of `ExecImpl`'s inner loop at reduce step `r`:
    load `guard_index` from the output slice, `guard_value` from the
    workspace, blend-select against the candidate, store both back.
    State is `(output, workspace)`. -/
def execImplStep (mode : Nat) (inp : Mem) (ibase obase outerDim r : Nat)
    (st : Mem × Mem) (b : Nat) : Mem × Mem :=
  let o := 4 * b
  let guardIndex := Float4.load st.1 (obase + o)
  let guardValue := Float4.load st.2 o
  let curIndex := Float4.splat (r : Int)
  let curValue := Float4.load inp (ibase + r * outerDim + o)
  let gi := if mode == 0 then Float4.bsl_clt curValue guardValue curIndex guardIndex
            else Float4.bsl_cgt curValue guardValue curIndex guardIndex
  let gv := if mode == 0 then Float4.fmin curValue guardValue
            else Float4.fmax curValue guardValue
  (Float4.store st.1 (obase + o) gi, Float4.store st.2 o gv)

/-- One `inner` iteration of `ExecImpl`: `memcpy` the first reduce-slice
    into the workspace, `memset` the output slice to zero, then for
    `r = 1 .. reduce_dim-1` sweep the `o`-blocks. -/
def execImplIter (mode : Nat) (inp : Mem) (reduceDim outerDim : Nat)
    (st : Mem × Mem) (i : Nat) : Mem × Mem :=
  let ibase := i * reduceDim * outerDim
  let obase := i * outerDim
  let ws1 : Mem := fun q => if q < outerDim then inp (ibase + q) else st.2 q
  let out1 : Mem := fun q => if obase ≤ q ∧ q < obase + outerDim then 0 else st.1 q
  foldRange (fun st2 rm =>
    foldRange (execImplStep mode inp ibase obase outerDim (rm + 1)) st2 (outerDim / 4))
    (out1, ws1) (reduceDim - 1)

/-- `ExecImpl`: workspace-caching strided reduction (batch / height axes),
    iterating the inner extent sequentially. Returns the final
    `(output, workspace)` memories. -/
def execImpl (mode : Nat) (inp : Mem) (out0 ws0 : Mem)
    (innerDim reduceDim outerDim : Nat) : Mem × Mem :=
  foldRange (execImplIter mode inp reduceDim outerDim) (out0, ws0) innerDim

/-! ### Dispatcher and entry point -/

inductive StatusCode where
  | ok
  | modelErr
  | paramErr
deriving DecidableEq

inductive DataType where
  | float
  | half
  | bfp16
  | int8
  | int32
deriving DecidableEq

/-- `DataTypeUtils::GetBytesSize`. -/
def DataType.bytes : DataType → Nat
  | .float => 4
  | .half => 2
  | .bfp16 => 2
  | .int8 => 1
  | .int32 => 4

structure ExecResult where
  status : StatusCode
  out : Mem
  wsRequest : Option Nat

/-- The `(inner, reduce, outer)` extents each dispatcher branch computes
    (`ExecDimC` / `ExecDimW` compute theirs internally). -/
def armExtents (axis : Nat) (n c h w : Nat) : Option (Nat × Nat × Nat) :=
  let icR4 := ((c + 3) / 4) * 4
  if axis == 0 then some (1, n, icR4 * h * w)
  else if axis == 1 then some (n, (c + 3) / 4, h * w * 4)
  else if axis == 2 then some (n * icR4 / 4, h, w * 4)
  else if axis == 3 then some (n * ((c + 3) / 4) * h, w, 4)
  else none

/-- `ArmArgMaxOrMinLayerAcc::Exec`: dispatch on `axis`; batch and height go
    through `ExecImpl` after requesting `outer_dim * input_byte_size`
    workspace bytes; channel and width use the dedicated reducers; any
    other axis is a parameter error before touching element memory. -/
def exec (axis mode byteSize : Nat) (n c h w : Nat) (inp out0 ws0 : Mem) :
    ExecResult :=
  let icR4 := ((c + 3) / 4) * 4
  if axis == 0 then
    let innerDim := 1
    let reduceDim := n
    let outerDim := icR4 * h * w
    ⟨.ok, (execImpl mode inp out0 ws0 innerDim reduceDim outerDim).1,
      some (outerDim * byteSize)⟩
  else if axis == 1 then
    ⟨.ok, execDimC mode inp n c h w out0, none⟩
  else if axis == 2 then
    let innerDim := n * icR4 / 4
    let reduceDim := h
    let outerDim := w * 4
    ⟨.ok, (execImpl mode inp out0 ws0 innerDim reduceDim outerDim).1,
      some (outerDim * byteSize)⟩
  else if axis == 3 then
    ⟨.ok, execDimW mode inp n c h w out0, none⟩
  else
    ⟨.paramErr, out0, none⟩

/-- `ArmArgMaxOrMinLayerAcc::DoForward`: reject a non-float output type,
    then dispatch on the input type (float or bfp16), else reject. -/
def doForward (inDT outDT : DataType) (axis mode : Nat) (n c h w : Nat)
    (inp out0 ws0 : Mem) : ExecResult :=
  if outDT ≠ DataType.float then ⟨.modelErr, out0, none⟩
  else if inDT = DataType.float then exec axis mode inDT.bytes n c h w inp out0 ws0
  else if inDT = DataType.bfp16 then exec axis mode inDT.bytes n c h w inp out0 ws0
  else ⟨.modelErr, out0, none⟩

/-- Logical channel values at one `(batch, spatial)` position: channel `ch`
    lives in packed group `ch / 4`, lane `ch % 4`, where `p` addresses the
    position's group 0 and `od` is the group stride. -/
def chanVals (inp : Mem) (p od : Nat) : Nat → Int :=
  fun ch => inp (p + (ch / 4) * od + ch % 4)

/-! ### Order and best-index lemmas -/

theorem foldRange_zero {α : Type} (f : α → Nat → α) (init : α) :
    foldRange f init 0 = init := rfl

theorem foldRange_succ {α : Type} (f : α → Nat → α) (init : α) (n : Nat) :
    foldRange f init (n + 1) = f (foldRange f init n) n := by
  unfold foldRange
  rw [List.range_succ, List.foldl_append]
  rfl

theorem better_irrefl (mode : Nat) (a : Int) : ¬ Better mode a a := by
  unfold Better
  split <;> omega

theorem better_trans {mode : Nat} {a b c : Int}
    (h1 : Better mode a b) (h2 : Better mode b c) : Better mode a c := by
  unfold Better at h1 h2 ⊢
  split at h1 <;> simp_all <;> omega

theorem better_asymm {mode : Nat} {a b : Int}
    (h : Better mode a b) : ¬ Better mode b a := by
  unfold Better at h ⊢
  split at h <;> simp_all <;> omega

theorem better_resolve {mode : Nat} {a b : Int}
    (h : ¬ Better mode a b) (hne : a ≠ b) : Better mode b a := by
  unfold Better at h ⊢
  split at h <;> simp_all <;> omega

theorem better_of_not_of_better {mode : Nat} {a b c : Int}
    (h1 : ¬ Better mode b a) (h2 : Better mode b c) : Better mode a c := by
  unfold Better at h1 h2 ⊢
  split at h1 <;> simp_all <;> omega

theorem better_of_better_of_not {mode : Nat} {a b c : Int}
    (h1 : Better mode a b) (h2 : ¬ Better mode c b) : Better mode a c := by
  unfold Better at h1 h2 ⊢
  split at h1 <;> simp_all <;> omega

theorem argBestOn_congr {mode : Nat} {vals : Nat → Int} {S T : Nat → Prop} {j : Nat}
    (hST : ∀ k, S k ↔ T k) (h : ArgBestOn mode vals S j) :
    ArgBestOn mode vals T j := by
  obtain ⟨h1, h2, h3⟩ := h
  exact ⟨(hST j).1 h1, fun k hk => h2 k ((hST k).2 hk),
    fun k hk => h3 k ((hST k).2 hk)⟩

theorem argBestOn_singleton (mode : Nat) (vals : Nat → Int) (j : Nat) :
    ArgBestOn mode vals (fun k => k = j) j := by
  refine ⟨rfl, ?_, ?_⟩
  · intro k hk
    rw [hk]
    exact better_irrefl mode (vals j)
  · intro k hk hlt
    omega

theorem argBestOn_unique {mode : Nat} {vals : Nat → Int} {S : Nat → Prop} {j j' : Nat}
    (h : ArgBestOn mode vals S j) (h' : ArgBestOn mode vals S j') : j = j' := by
  obtain ⟨hj, hnb, hmin⟩ := h
  obtain ⟨hj', hnb', hmin'⟩ := h'
  rcases Nat.lt_trichotomy j j' with hlt | heq | hgt
  · exact absurd (hmin' j hj hlt) (hnb j' hj')
  · exact heq
  · exact absurd (hmin j' hj' hgt) (hnb' j hj)

/-- Merging two smallest-index extremes: a running `(value, index)` pair
    that is best over `S`, updated against a candidate best over `T` by
    "replace on strictly better, or on equal value with smaller index",
    is best over the union. -/
theorem argBestOn_merge {mode : Nat} {vals : Nat → Int} {S T : Nat → Prop} {j j' : Nat}
    (hS : ArgBestOn mode vals S j) (hT : ArgBestOn mode vals T j') :
    ArgBestOn mode vals (fun k => S k ∨ T k)
      (if Better mode (vals j') (vals j) then j'
       else if vals j' = vals j ∧ j' < j then j' else j) := by
  obtain ⟨hSj, hSnb, hSmin⟩ := hS
  obtain ⟨hTj, hTnb, hTmin⟩ := hT
  by_cases h1 : Better mode (vals j') (vals j)
  · simp only [if_pos h1]
    refine ⟨Or.inr hTj, ?_, ?_⟩
    · rintro k (hk | hk)
      · intro hb
        exact hSnb k hk (better_trans hb h1)
      · exact hTnb k hk
    · rintro k (hk | hk) hlt
      · exact better_of_better_of_not h1 (hSnb k hk)
      · exact hTmin k hk hlt
  · simp only [if_neg h1]
    by_cases h2 : vals j' = vals j ∧ j' < j
    · simp only [if_pos h2]
      refine ⟨Or.inr hTj, ?_, ?_⟩
      · rintro k (hk | hk)
        · rw [h2.1]
          exact hSnb k hk
        · exact hTnb k hk
      · rintro k (hk | hk) hlt
        · rw [h2.1]
          exact hSmin k hk (lt_trans hlt h2.2)
        · exact hTmin k hk hlt
    · simp only [if_neg h2]
      refine ⟨Or.inl hSj, ?_, ?_⟩
      · rintro k (hk | hk)
        · exact hSnb k hk
        · intro hb
          exact hTnb k hk (better_of_better_of_not hb h1)
      · rintro k (hk | hk) hlt
        · exact hSmin k hk hlt
        · rcases Nat.lt_or_ge k j' with hkj' | hkj'
          · exact better_of_not_of_better h1 (hTmin k hk hkj')
          · have hne : vals j' ≠ vals j := by
              intro he
              exact h2 ⟨he, by omega⟩
            have hjj' : Better mode (vals j) (vals j') :=
              better_resolve h1 hne
            exact better_of_better_of_not hjj' (hTnb k hk)

/-! ### The scalar running-compare fold finds the smallest-index extreme -/

theorem argStep_eq (mode : Nat) (s : Int × Int) (r : Nat) (cv : Int) :
    argStep mode s r cv = if Better mode cv s.2 then ((r : Int), cv) else s := by
  by_cases h : Better mode cv s.2
  · have h' := h
    unfold Better at h'
    simp only [argStep, if_pos h', if_pos h]
  · have h' := h
    unfold Better at h'
    simp only [argStep, if_neg h', if_neg h]

theorem argPair_succ (mode : Nat) (vals : Nat → Int) (m : Nat) (hm : 1 ≤ m) :
    argPair mode vals (m + 1) =
      argStep mode (argPair mode vals m) m (vals m) := by
  unfold argPair
  obtain ⟨m', rfl⟩ : ∃ m', m = m' + 1 := ⟨m - 1, by omega⟩
  have h1 : m' + 1 + 1 - 1 = (m' + 1 - 1) + 1 := by omega
  rw [h1, foldRange_succ]
  simp

theorem argPair_best (mode : Nat) (vals : Nat → Int) :
    ∀ len, 1 ≤ len → ∃ j : Nat, argPair mode vals len = ((j : Int), vals j) ∧
      ArgBestOn mode vals (fun k => k < len) j := by
  intro len
  induction len with
  | zero => omega
  | succ m ih =>
    intro _
    rcases Nat.eq_zero_or_pos m with hm | hm
    · subst hm
      refine ⟨0, rfl, ?_, ?_, ?_⟩
      · omega
      · intro k hk
        have : k = 0 := by omega
        rw [this]
        exact better_irrefl mode (vals 0)
      · intro k hk hlt
        omega
    · obtain ⟨j, hpair, hbest⟩ := ih hm
      have hjm : j < m := hbest.1
      have hmerge := argBestOn_merge hbest (argBestOn_singleton mode vals m)
      rw [argPair_succ mode vals m hm, hpair, argStep_eq]
      by_cases hb : Better mode (vals m) (vals j)
      · refine ⟨m, by simp [hb], ?_⟩
        rw [if_pos hb] at hmerge
        exact argBestOn_congr (fun k => by constructor <;> intro h <;> omega) hmerge
      · refine ⟨j, by simp [hb], ?_⟩
        rw [if_neg hb, if_neg (by omega : ¬ (vals m = vals j ∧ m < j))] at hmerge
        exact argBestOn_congr (fun k => by constructor <;> intro h <;> omega) hmerge

theorem naiveArgExt_succ (mode : Nat) (vals : Nat → Int) (m : Nat) :
    naiveArgExt mode vals (m + 1) =
      (if Better mode (vals m) (vals (naiveArgExt mode vals m))
       then m else naiveArgExt mode vals m) := by
  unfold naiveArgExt
  rw [List.range_succ, List.foldl_append]
  rfl

theorem naiveArgExt_best (mode : Nat) (vals : Nat → Int) :
    ∀ len, 1 ≤ len →
      ArgBestOn mode vals (fun k => k < len) (naiveArgExt mode vals len) := by
  intro len
  induction len with
  | zero => omega
  | succ m ih =>
    intro _
    rcases Nat.eq_zero_or_pos m with hm | hm
    · subst hm
      have h0 : naiveArgExt mode vals 1 = 0 := by
        rw [show (1 : Nat) = 0 + 1 from rfl, naiveArgExt_succ]
        simp [naiveArgExt, better_irrefl]
      rw [h0]
      refine ⟨by omega, ?_, ?_⟩
      · intro k hk
        have : k = 0 := by omega
        rw [this]
        exact better_irrefl mode (vals 0)
      · intro k hk hlt
        omega
    · have hbest := ih hm
      have hjm : naiveArgExt mode vals m < m := hbest.1
      have hmerge := argBestOn_merge hbest (argBestOn_singleton mode vals m)
      rw [naiveArgExt_succ]
      by_cases hb : Better mode (vals m) (vals (naiveArgExt mode vals m))
      · rw [if_pos hb]
        rw [if_pos hb] at hmerge
        exact argBestOn_congr (fun k => by constructor <;> intro h <;> omega) hmerge
      · rw [if_neg hb]
        rw [if_neg hb,
          if_neg (by omega : ¬ (vals m = vals (naiveArgExt mode vals m) ∧
            m < naiveArgExt mode vals m))] at hmerge
        exact argBestOn_congr (fun k => by constructor <;> intro h <;> omega) hmerge

/-- The running-compare fold and the spec's naive scan agree. -/
theorem argPair_fst_eq_naive (mode : Nat) (vals : Nat → Int) (len : Nat)
    (hlen : 1 ≤ len) :
    (argPair mode vals len).1 = ((naiveArgExt mode vals len : Nat) : Int) := by
  obtain ⟨j, hpair, hbest⟩ := argPair_best mode vals len hlen
  rw [hpair]
  rw [argBestOn_unique hbest (naiveArgExt_best mode vals len hlen)]

/-! ### Lanes of the register fold compute independent scalar folds -/

theorem foldRange_hom {α β : Type} (F : α → Nat → α) (G : β → Nat → β)
    (proj : α → β) (h : ∀ a k, proj (F a k) = G (proj a) k) (init : α) (n : Nat) :
    proj (foldRange F init n) = foldRange G (proj init) n := by
  induction n with
  | zero => rfl
  | succ m ih => rw [foldRange_succ, foldRange_succ, h, ih]

theorem execNoWorkspace_lane (mem : Mem) (base reduceDim outerDim mode : Nat)
    (l : Nat) :
    ((execNoWorkspace mem base reduceDim outerDim mode).1 l,
      (execNoWorkspace mem base reduceDim outerDim mode).2 l) =
    argPair mode (fun r => mem (base + r * outerDim + l)) reduceDim := by
  unfold execNoWorkspace argPair
  refine Eq.trans (foldRange_hom _
    (fun s rm => argStep mode s (rm + 1) (mem (base + (rm + 1) * outerDim + l)))
    (fun g : Float4 × Float4 => (g.1 l, g.2 l)) ?_ _ _) ?_
  · intro g rm
    by_cases hmode : (mode == 0) = true
    · simp only [hmode, if_true, argStep, Float4.load, Float4.splat,
        Float4.bsl_clt, Float4.fmin]
      by_cases hb : mem (base + (rm + 1) * outerDim + l) < g.2 l
      · simp [Float4.bsl_clt, Float4.fmin, Float4.load, Float4.splat, hb,
          min_eq_left (le_of_lt hb)]
      · simp [Float4.bsl_clt, Float4.fmin, Float4.load, Float4.splat, hb,
          min_eq_right (not_lt.1 hb)]
    · simp only [hmode, if_false, argStep, Float4.load, Float4.splat,
        Float4.bsl_cgt, Float4.fmax]
      by_cases hb : g.2 l < mem (base + (rm + 1) * outerDim + l)
      · simp [Float4.bsl_cgt, Float4.fmax, Float4.load, Float4.splat, hb,
          max_eq_left (le_of_lt hb)]
      · simp [Float4.bsl_cgt, Float4.fmax, Float4.load, Float4.splat, hb,
          max_eq_right (not_lt.1 hb)]
  · have hinit : ((Float4.splat 0 : Float4) l, Float4.load mem base l) =
        ((0 : Int), mem (base + 0 * outerDim + l)) := by
      simp [Float4.splat, Float4.load]
    rw [hinit]

/-! ### Flattening loops of disjoint 4-wide stores -/

theorem set_lane_zero_eval (x : Int) (t : Nat) :
    Float4.set_lane (Float4.splat 0) x 0 t = if t = 0 then x else 0 := by
  simp [Float4.set_lane, Float4.splat]

/-- A loop of stores of state-independent vectors at disjoint stride-4
    addresses writes exactly the interval `[base, base + 4*k)`. -/
theorem foldRange_store4 (addr : Nat → Nat) (f : Nat → Float4) (base : Nat)
    (haddr : ∀ b, addr b = base + 4 * b) :
    ∀ (k : Nat) (st : Mem) (q : Nat),
      foldRange (fun out b => Float4.store out (addr b) (f b)) st k q =
      if base ≤ q ∧ q < base + 4 * k then f ((q - base) / 4) ((q - base) % 4)
      else st q := by
  intro k
  induction k with
  | zero =>
    intro st q
    rw [foldRange_zero]
    rw [if_neg (by omega)]
  | succ m ih =>
    intro st q
    rw [foldRange_succ]
    have hstore : ∀ (mm : Mem) (p : Nat) (v : Float4) (x : Nat),
        Float4.store mm p v x = if p ≤ x ∧ x < p + 4 then v (x - p) else mm x :=
      fun _ _ _ _ => rfl
    rw [hstore, haddr m]
    by_cases hq : base + 4 * m ≤ q ∧ q < base + 4 * m + 4
    · rw [if_pos hq, if_pos (by omega)]
      have hdiv : (q - base) / 4 = m := by omega
      have hmod : (q - base) % 4 = q - (base + 4 * m) := by omega
      rw [hdiv, hmod]
    · rw [if_neg hq, ih st q]
      by_cases hq2 : base ≤ q ∧ q < base + 4 * m
      · rw [if_pos hq2, if_pos (by omega)]
      · rw [if_neg hq2, if_neg (by omega)]

/-- Every position of `ExecDimW`'s output: positions below
    `4 * innerDim` get the lane of the register fold on their window,
    the rest keep the prior output contents. -/
theorem execDimW_flat (mode : Nat) (inp : Mem) (n c h w : Nat) (out0 : Mem)
    (q : Nat) :
    execDimW mode inp n c h w out0 q =
      if q < 4 * (n * ((c + 3) / 4) * h) then
        (execNoWorkspace inp (q / 4 * w * 4) w 4 mode).1 (q % 4)
      else out0 q := by
  simp only [execDimW]
  rw [foldRange_store4 (fun i => i * 4)
    (fun i => (execNoWorkspace inp (i * w * 4) w 4 mode).1) 0
    (fun b => by show b * 4 = 0 + 4 * b; omega) (n * ((c + 3) / 4) * h) out0 q]
  by_cases hq : q < 4 * (n * ((c + 3) / 4) * h)
  · rw [if_pos (by omega), if_pos hq]
    have h1 : q - 0 = q := by omega
    rw [h1]
  · rw [if_neg (by omega), if_neg hq]

/-- Every position of `ExecDimC`'s output: positions below
    `N * outerDim` get lane `q % 4` of the stored result vector for their
    output group, the rest keep the prior output contents. -/
theorem execDimC_flat (mode : Nat) (inp : Mem) (n c h w : Nat) (out0 : Mem)
    (q : Nat) :
    execDimC mode inp n c h w out0 q =
      if q < n * (h * w * 4) then
        (if q % 4 = 0 then
          (dimCBlock mode inp c (h * w * 4)
            (q / (h * w * 4) * ((c + 3) / 4) * (h * w * 4) +
              4 * (q % (h * w * 4) / 4))).2
        else 0)
      else out0 q := by
  simp only [execDimC]
  have hinner : ∀ (i : Nat) (st : Mem) (q' : Nat),
      foldRange (fun out b =>
        Float4.store out (i * (h * w * 4) + 4 * b)
          (Float4.set_lane (Float4.splat 0)
            (dimCBlock mode inp c (h * w * 4)
              (i * ((c + 3) / 4) * (h * w * 4) + 4 * b)).2 0)) st (h * w * 4 / 4) q' =
      if i * (h * w * 4) ≤ q' ∧ q' < i * (h * w * 4) + h * w * 4 then
        (if q' % 4 = 0 then
          (dimCBlock mode inp c (h * w * 4)
            (i * ((c + 3) / 4) * (h * w * 4) + 4 * ((q' - i * (h * w * 4)) / 4))).2
        else 0)
      else st q' := by
    intro i st q'
    rw [foldRange_store4 (fun b => i * (h * w * 4) + 4 * b)
      (fun b => Float4.set_lane (Float4.splat 0)
        (dimCBlock mode inp c (h * w * 4)
          (i * ((c + 3) / 4) * (h * w * 4) + 4 * b)).2 0)
      (i * (h * w * 4)) (fun b => rfl) (h * w * 4 / 4) st q']
    obtain ⟨u, hu⟩ : ∃ u, i * (h * w * 4) = 4 * u := ⟨i * (h * w), by ring⟩
    have h4 : 4 * (h * w * 4 / 4) = h * w * 4 := by omega
    rw [h4]
    by_cases hq' : i * (h * w * 4) ≤ q' ∧ q' < i * (h * w * 4) + h * w * 4
    · rw [if_pos hq', if_pos hq', set_lane_zero_eval]
      have hmod : (q' - i * (h * w * 4)) % 4 = q' % 4 := by omega
      rw [hmod]
    · rw [if_neg hq', if_neg hq']
  induction n with
  | zero =>
    rw [foldRange_zero, if_neg (by omega)]
  | succ m ihn =>
    rw [foldRange_succ]
    rw [hinner]
    by_cases hq1 : m * (h * w * 4) ≤ q ∧ q < m * (h * w * 4) + h * w * 4
    · have hlt : q < (m + 1) * (h * w * 4) := by
        rw [Nat.succ_mul]
        omega
      rw [if_pos hq1, if_pos hlt]
      have hdiv : q / (h * w * 4) = m := Nat.div_eq_of_lt_le hq1.1 hlt
      have h5 := Nat.mod_add_div q (h * w * 4)
      rw [hdiv] at h5
      have hmod : q % (h * w * 4) = q - m * (h * w * 4) := by
        rw [mul_comm (h * w * 4) m] at h5
        omega
      rw [hdiv, hmod]
    · rw [if_neg hq1, ihn]
      by_cases hq2 : q < m * (h * w * 4)
      · have hlt : q < (m + 1) * (h * w * 4) := by
          rw [Nat.succ_mul]
          omega
        rw [if_pos hq2, if_pos hlt]
      · have hge : ¬ q < (m + 1) * (h * w * 4) := by
          rw [Nat.succ_mul]
          omega
        rw [if_neg hq2, if_neg hge]

/-! ### The channel-axis horizontal resolution -/

theorem compareC4_zero (mode : Nat) (gv gi : Float4) (start : Nat)
    (s0 : Int × Int) :
    compareC4 mode gv gi start start s0 = s0 := by
  unfold compareC4
  rw [Nat.sub_self, foldRange_zero]

theorem compareC4_succ (mode : Nat) (gv gi : Float4) (start d : Nat)
    (s0 : Int × Int) :
    compareC4 mode gv gi start (start + (d + 1)) s0 =
      (if Better mode (gv (start + d))
          (compareC4 mode gv gi start (start + d) s0).1
       then (gv (start + d), gi (start + d) * 4 + ((start + d : Nat) : Int))
       else if gv (start + d) = (compareC4 mode gv gi start (start + d) s0).1 ∧
           gi (start + d) * 4 + ((start + d : Nat) : Int) <
             (compareC4 mode gv gi start (start + d) s0).2
       then ((compareC4 mode gv gi start (start + d) s0).1,
             gi (start + d) * 4 + ((start + d : Nat) : Int))
       else compareC4 mode gv gi start (start + d) s0) := by
  unfold compareC4
  have h1 : start + (d + 1) - start = d + 1 := by omega
  have h2 : start + d - start = d := by omega
  rw [h1, h2, foldRange_succ]
  generalize foldRange (compareC4Step mode gv gi start) s0 d = s
  unfold compareC4Step
  by_cases hmode : (mode == 0) = true
  · simp only [hmode, if_true]
    by_cases hb : gv (start + d) < s.1
    · rw [if_pos hb]
      rw [if_pos (show Better mode _ _ by unfold Better; rw [if_pos hmode]; exact hb)]
    · rw [if_neg hb]
      rw [if_neg (show ¬ Better mode _ _ by unfold Better; rw [if_pos hmode]; exact hb)]
  · rw [if_neg hmode]
    by_cases hb : s.1 < gv (start + d)
    · rw [if_pos hb]
      rw [if_pos (show Better mode _ _ by unfold Better; rw [if_neg hmode]; exact hb)]
    · rw [if_neg hb]
      rw [if_neg (show ¬ Better mode _ _ by unfold Better; rw [if_neg hmode]; exact hb)]

/-- `CompareC4` merges a running smallest-index extreme with per-lane
    smallest-index extremes into the smallest-index extreme of the union
    of their candidate sets. -/
theorem compareC4_best (mode : Nat) (cv : Nat → Int) (gv gi : Float4)
    (jc : Nat → Nat) (T : Nat → Nat → Prop) (start : Nat) :
    ∀ (d : Nat) (S : Nat → Prop) (j : Nat),
      (∀ x, start ≤ x → x < start + d →
        gv x = cv (jc x) ∧ gi x * 4 + (x : Int) = ((jc x : Nat) : Int) ∧
          ArgBestOn mode cv (T x) (jc x)) →
      ArgBestOn mode cv S j →
      ∃ J : Nat, compareC4 mode gv gi start (start + d) (cv j, ((j : Nat) : Int)) =
          (cv J, ((J : Nat) : Int)) ∧
        ArgBestOn mode cv
          (fun k => S k ∨ ∃ x, start ≤ x ∧ x < start + d ∧ T x k) J := by
  intro d
  induction d with
  | zero =>
    intro S j hx hS
    refine ⟨j, ?_, ?_⟩
    · rw [Nat.add_zero, compareC4_zero]
    · refine argBestOn_congr (fun k => ?_) hS
      constructor
      · intro h
        exact Or.inl h
      · rintro (h | ⟨x, hx1, hx2, _⟩)
        · exact h
        · omega
  | succ d ih =>
    intro S j hx hS
    obtain ⟨J, hJeq, hJbest⟩ := ih S j (fun x h1 h2 => hx x h1 (by omega)) hS
    obtain ⟨hgv, hgi, hTbest⟩ := hx (start + d) (by omega) (by omega)
    have hmerge := argBestOn_merge hJbest hTbest
    refine ⟨if Better mode (cv (jc (start + d))) (cv J) then jc (start + d)
      else if cv (jc (start + d)) = cv J ∧ jc (start + d) < J then jc (start + d)
      else J, ?_, ?_⟩
    · have hJ1 : (compareC4 mode gv gi start (start + d) (cv j, ((j : Nat) : Int))).1 =
          cv J := by rw [hJeq]
      have hJ2 : (compareC4 mode gv gi start (start + d) (cv j, ((j : Nat) : Int))).2 =
          ((J : Nat) : Int) := by rw [hJeq]
      rw [compareC4_succ, hJ1, hJ2, hJeq, hgv, hgi]
      by_cases h1 : Better mode (cv (jc (start + d))) (cv J)
      · rw [if_pos h1, if_pos h1]
      · rw [if_neg h1, if_neg h1]
        by_cases h2 : cv (jc (start + d)) = cv J ∧ jc (start + d) < J
        · rw [if_pos h2,
            if_pos ⟨h2.1, show (((jc (start + d) : Nat)) : Int) < ((J : Nat) : Int) by
              exact_mod_cast h2.2⟩]
          rw [h2.1]
        · rw [if_neg h2]
          rw [if_neg (by
            rintro ⟨he, hlt⟩
            have hlt2 : (((jc (start + d) : Nat)) : Int) < ((J : Nat) : Int) := hlt
            exact h2 ⟨he, by exact_mod_cast hlt2⟩)]
    · refine argBestOn_congr (fun k => ?_) hmerge
      constructor
      · rintro ((h | ⟨x, hx1, hx2, hxk⟩) | h)
        · exact Or.inl h
        · exact Or.inr ⟨x, hx1, by omega, hxk⟩
        · exact Or.inr ⟨start + d, by omega, by omega, h⟩
      · rintro (h | ⟨x, hx1, hx2, hxk⟩)
        · exact Or.inl (Or.inl h)
        · by_cases hxd : x = start + d
          · subst hxd
            exact Or.inr hxk
          · exact Or.inl (Or.inr ⟨x, hx1, by omega, hxk⟩)

/-- Embedding one SIMD lane's per-group winner into the composite
    channel index space. -/
theorem argBestOn_lane_embed {mode : Nat} {vals : Nat → Int} {m j l : Nat}
    (hl : l < 4)
    (h : ArgBestOn mode (fun g => vals (4 * g + l)) (fun g => g < m) j) :
    ArgBestOn mode vals (fun ch => ch < 4 * m ∧ ch % 4 = l) (4 * j + l) := by
  obtain ⟨hj, hnb, hmin⟩ := h
  refine ⟨⟨by omega, by omega⟩, ?_, ?_⟩
  · rintro k ⟨hk1, hk2⟩
    have hk : ¬ Better mode (vals (4 * (k / 4) + l)) (vals (4 * j + l)) :=
      hnb (k / 4) (by omega)
    have he : 4 * (k / 4) + l = k := by omega
    rw [he] at hk
    exact hk
  · rintro k ⟨hk1, hk2⟩ hlt
    have hk : Better mode (vals (4 * j + l)) (vals (4 * (k / 4) + l)) :=
      hmin (k / 4) (by omega) (by omega)
    have he : 4 * (k / 4) + l = k := by omega
    rw [he] at hk
    exact hk

theorem argBestOn_congr_vals {mode : Nat} {vals vals' : Nat → Int}
    {S : Nat → Prop} {j : Nat} (hv : ∀ k, S k → vals k = vals' k)
    (h : ArgBestOn mode vals S j) : ArgBestOn mode vals' S j := by
  obtain ⟨h1, h2, h3⟩ := h
  refine ⟨h1, ?_, ?_⟩
  · intro k hk
    rw [← hv k hk, ← hv j h1]
    exact h2 k hk
  · intro k hk hlt
    rw [← hv k hk, ← hv j h1]
    exact h3 k hk hlt

theorem chanVals_lane (inp : Mem) (p od l r : Nat) (hl : l < 4) :
    chanVals inp p od (4 * r + l) = inp (p + r * od + l) := by
  unfold chanVals
  have h1 : (4 * r + l) / 4 = r := by omega
  have h2 : (4 * r + l) % 4 = l := by omega
  rw [h1, h2]

/-- Lane `l` of the channel register fold over `m` full groups carries the
    smallest-index extreme of the channels congruent to `l` mod 4. -/
theorem dimC_lane_data (mode : Nat) (inp : Mem) (p od m : Nat) (hm : 1 ≤ m)
    (l : Nat) (hl : l < 4) :
    ∃ jl : Nat,
      (execNoWorkspace inp p m od mode).2 l = chanVals inp p od (4 * jl + l) ∧
      (execNoWorkspace inp p m od mode).1 l * 4 + (l : Int) =
        ((4 * jl + l : Nat) : Int) ∧
      ArgBestOn mode (chanVals inp p od)
        (fun ch => ch < 4 * m ∧ ch % 4 = l) (4 * jl + l) := by
  obtain ⟨j, hpair, hbest⟩ := argPair_best mode (fun r => inp (p + r * od + l)) m hm
  have hlane := execNoWorkspace_lane inp p m od mode l
  rw [hpair] at hlane
  have h1 : (execNoWorkspace inp p m od mode).1 l = ((j : Nat) : Int) :=
    congrArg Prod.fst hlane
  have h2 : (execNoWorkspace inp p m od mode).2 l = inp (p + j * od + l) :=
    congrArg Prod.snd hlane
  refine ⟨j, ?_, ?_, ?_⟩
  · rw [h2, chanVals_lane inp p od l j hl]
  · rw [h1]
    push_cast
    ring
  · have hbest2 : ArgBestOn mode (fun g => chanVals inp p od (4 * g + l))
        (fun g => g < m) j :=
      argBestOn_congr_vals
        (fun k _ => (chanVals_lane inp p od l k hl).symm) hbest
    exact argBestOn_lane_embed hl hbest2

/-- After the register fold over `m ≥ 1` full groups, the horizontal
    `CompareC4` over lanes 1..3 (seeded with lane 0's candidate) yields the
    smallest-index extreme of the first `4*m` channels. -/
theorem dimC_full_groups_best (mode : Nat) (inp : Mem) (p od m : Nat)
    (hm : 1 ≤ m) :
    ∃ J : Nat,
      compareC4 mode (execNoWorkspace inp p m od mode).2
          (execNoWorkspace inp p m od mode).1 1 4
          ((execNoWorkspace inp p m od mode).2 0,
            (execNoWorkspace inp p m od mode).1 0 * 4) =
        (chanVals inp p od J, ((J : Nat) : Int)) ∧
      ArgBestOn mode (chanVals inp p od) (fun ch => ch < 4 * m) J := by
  obtain ⟨j0, h0v, h0i, h0best⟩ := dimC_lane_data mode inp p od m hm 0 (by omega)
  have hall : ∀ x : Nat, ∃ jl : Nat, x < 4 →
      ((execNoWorkspace inp p m od mode).2 x = chanVals inp p od (4 * jl + x) ∧
        (execNoWorkspace inp p m od mode).1 x * 4 + (x : Int) =
          ((4 * jl + x : Nat) : Int) ∧
        ArgBestOn mode (chanVals inp p od)
          (fun ch => ch < 4 * m ∧ ch % 4 = x) (4 * jl + x)) := by
    intro x
    by_cases hx : x < 4
    · obtain ⟨jl, h⟩ := dimC_lane_data mode inp p od m hm x hx
      exact ⟨jl, fun _ => h⟩
    · exact ⟨0, fun hx2 => absurd hx2 hx⟩
  choose jf hjf using hall
  have hi0 : (execNoWorkspace inp p m od mode).1 0 * 4 =
      ((4 * j0 + 0 : Nat) : Int) := by
    have h := h0i
    push_cast at h ⊢
    omega
  obtain ⟨J, hJeq, hJbest⟩ := compareC4_best mode (chanVals inp p od)
    (execNoWorkspace inp p m od mode).2 (execNoWorkspace inp p m od mode).1
    (fun x => 4 * jf x + x) (fun x ch => ch < 4 * m ∧ ch % 4 = x) 1 3
    (fun ch => ch < 4 * m ∧ ch % 4 = 0) (4 * j0 + 0)
    (fun x hx1 hx2 => hjf x (by omega)) h0best
  refine ⟨J, ?_, ?_⟩
  · rw [h0v, hi0]
    exact hJeq
  · refine argBestOn_congr (fun k => ?_) hJbest
    constructor
    · rintro (⟨hk1, _⟩ | ⟨x, _, _, hk1, _⟩)
      · exact hk1
      · exact hk1
    · intro hk
      by_cases hk4 : k % 4 = 0
      · exact Or.inl ⟨hk, hk4⟩
      · exact Or.inr ⟨k % 4, by omega, by omega, hk, rfl⟩

/-- `dimCBlock` computes the smallest-index extreme over exactly the `C`
    logical channels — padding lanes of a partial last group are never
    candidates. -/
theorem dimCBlock_best (mode : Nat) (inp : Mem) (c od p : Nat) (hc : 1 ≤ c) :
    ∃ J : Nat, dimCBlock mode inp c od p =
        (chanVals inp p od J, ((J : Nat) : Int)) ∧
      ArgBestOn mode (chanVals inp p od) (fun ch => ch < c) J := by
  by_cases hr : c % 4 = 0
  · have hrd : (c + 3) / 4 ≠ 0 := by omega
    obtain ⟨J, hJeq, hJbest⟩ :=
      dimC_full_groups_best mode inp p od ((c + 3) / 4) (by omega)
    refine ⟨J, ?_, ?_⟩
    · simp only [dimCBlock]
      rw [if_pos (show ((c % 4 == 0) = true) by simp [hr]),
        if_pos hrd, if_neg (show ¬ (c % 4 ≠ 0) by omega)]
      exact hJeq
    · exact argBestOn_congr (fun k => by constructor <;> intro h <;> omega) hJbest
  · by_cases h1 : (c + 3) / 4 - 1 = 0
    · -- a single partial group: channels 0 .. c-1 live in group 0
      have hc3 : c < 4 := by omega
      have hlane0 := execNoWorkspace_lane inp p 0 od mode 0
      have hap0 : argPair mode (fun r => inp (p + r * od + 0)) 0 =
          ((0 : Int), inp (p + 0 * od + 0)) := rfl
      rw [hap0] at hlane0
      have h10 : (execNoWorkspace inp p 0 od mode).1 0 = (0 : Int) :=
        congrArg Prod.fst hlane0
      have h20 : (execNoWorkspace inp p 0 od mode).2 0 = inp (p + 0 * od + 0) :=
        congrArg Prod.snd hlane0
      obtain ⟨J, hJeq, hJbest⟩ := compareC4_best mode (chanVals inp p od)
        (Float4.load inp (p + 0 * od)) (Float4.splat ((0 : Nat) : Int))
        (fun x => x) (fun x k => k = x) 0 (c % 4)
        (fun k => k = 0) 0
        (fun x hx1 hx2 => by
          refine ⟨?_, ?_, argBestOn_singleton mode (chanVals inp p od) x⟩
          · show inp (p + 0 * od + x) = chanVals inp p od x
            unfold chanVals
            rw [show x / 4 = 0 by omega, show x % 4 = x by omega]
          · simp [Float4.splat])
        (argBestOn_singleton mode (chanVals inp p od) 0)
      rw [Nat.zero_add] at hJeq
      refine ⟨J, ?_, ?_⟩
      · simp only [dimCBlock]
        rw [if_neg (show ¬ ((c % 4 == 0) = true) by simpa using hr),
          if_neg (show ¬ ((c + 3) / 4 - 1 ≠ 0) by omega), if_pos hr, h1]
        rw [h20, h10]
        have hs0 : ((inp (p + 0 * od + 0) : Int), (0 : Int) * 4) =
            (chanVals inp p od 0, ((0 : Nat) : Int)) := by
          unfold chanVals
          norm_num
        rw [hs0]
        exact hJeq
      · refine argBestOn_congr (fun k => ?_) hJbest
        constructor
        · rintro (rfl | ⟨x, _, hx2, rfl⟩) <;> omega
        · intro hk
          exact Or.inr ⟨k, by omega, by omega, rfl⟩
    · -- full groups plus a partial group
      have hm1 : 1 ≤ (c + 3) / 4 - 1 := by omega
      obtain ⟨J1, hJ1eq, hJ1best⟩ :=
        dimC_full_groups_best mode inp p od ((c + 3) / 4 - 1) hm1
      obtain ⟨J, hJeq, hJbest⟩ := compareC4_best mode (chanVals inp p od)
        (Float4.load inp (p + ((c + 3) / 4 - 1) * od))
        (Float4.splat (((c + 3) / 4 - 1 : Nat) : Int))
        (fun x => 4 * ((c + 3) / 4 - 1) + x)
        (fun x k => k = 4 * ((c + 3) / 4 - 1) + x) 0 (c % 4)
        (fun ch => ch < 4 * ((c + 3) / 4 - 1)) J1
        (fun x hx1 hx2 => by
          refine ⟨?_, ?_, argBestOn_singleton mode (chanVals inp p od) _⟩
          · show inp (p + ((c + 3) / 4 - 1) * od + x) =
              chanVals inp p od (4 * ((c + 3) / 4 - 1) + x)
            rw [chanVals_lane inp p od x ((c + 3) / 4 - 1) (by omega)]
          · show (((c + 3) / 4 - 1 : Nat) : Int) * 4 + (x : Int) =
              ((4 * ((c + 3) / 4 - 1) + x : Nat) : Int)
            generalize (c + 3) / 4 - 1 = mg
            push_cast
            ring)
        hJ1best
      rw [Nat.zero_add] at hJeq
      refine ⟨J, ?_, ?_⟩
      · simp only [dimCBlock]
        rw [if_neg (show ¬ ((c % 4 == 0) = true) by simpa using hr),
          if_pos h1, if_pos hr]
        rw [hJ1eq]
        exact hJeq
      · refine argBestOn_congr (fun k => ?_) hJbest
        constructor
        · rintro (hk | ⟨x, _, hx2, rfl⟩) <;> omega
        · intro hk
          by_cases hkk : k < 4 * ((c + 3) / 4 - 1)
          · exact Or.inl hkk
          · exact Or.inr ⟨k - 4 * ((c + 3) / 4 - 1), by omega, by omega, by omega⟩

/-! ### The workspace-caching reducer -/

theorem execImplStep_out (mode : Nat) (inp : Mem) (ibase obase od r : Nat)
    (st : Mem × Mem) (b q : Nat) :
    (execImplStep mode inp ibase obase od r st b).1 q =
      if obase + 4 * b ≤ q ∧ q < obase + 4 * b + 4 then
        (argStep mode (st.1 q, st.2 (q - obase)) r
          (inp (ibase + r * od + (q - obase)))).1
      else st.1 q := by
  simp only [execImplStep]
  show Float4.store st.1 (obase + 4 * b) _ q = _
  unfold Float4.store
  by_cases hq : obase + 4 * b ≤ q ∧ q < obase + 4 * b + 4
  · rw [if_pos hq, if_pos hq]
    have hcv : Float4.load inp (ibase + r * od + 4 * b) (q - (obase + 4 * b)) =
        inp (ibase + r * od + (q - obase)) := by
      unfold Float4.load
      exact congrArg inp (by omega)
    have hgv : Float4.load st.2 (4 * b) (q - (obase + 4 * b)) =
        st.2 (q - obase) := by
      unfold Float4.load
      exact congrArg st.2 (by omega)
    have hgi : Float4.load st.1 (obase + 4 * b) (q - (obase + 4 * b)) =
        st.1 q := by
      unfold Float4.load
      exact congrArg st.1 (by omega)
    by_cases hmode : (mode == 0) = true
    · simp only [hmode, if_true, Float4.bsl_clt, argStep, hcv, hgv, hgi,
        Float4.splat]
      by_cases hb : inp (ibase + r * od + (q - obase)) < st.2 (q - obase)
      · rw [if_pos hb, if_pos hb]
      · rw [if_neg hb, if_neg hb]
    · simp only [hmode, Bool.false_eq_true, if_false, Float4.bsl_cgt, argStep,
        hcv, hgv, hgi, Float4.splat]
      by_cases hb : st.2 (q - obase) < inp (ibase + r * od + (q - obase))
      · rw [if_pos hb, if_pos hb]
      · rw [if_neg hb, if_neg hb]
  · rw [if_neg hq, if_neg hq]

theorem execImplStep_ws (mode : Nat) (inp : Mem) (ibase obase od r : Nat)
    (st : Mem × Mem) (b q : Nat) :
    (execImplStep mode inp ibase obase od r st b).2 q =
      if 4 * b ≤ q ∧ q < 4 * b + 4 then
        (argStep mode (st.1 (obase + q), st.2 q) r
          (inp (ibase + r * od + q))).2
      else st.2 q := by
  simp only [execImplStep]
  show Float4.store st.2 (4 * b) _ q = _
  unfold Float4.store
  by_cases hq : 4 * b ≤ q ∧ q < 4 * b + 4
  · rw [if_pos hq, if_pos hq]
    have hcv : Float4.load inp (ibase + r * od + 4 * b) (q - 4 * b) =
        inp (ibase + r * od + q) := by
      unfold Float4.load
      exact congrArg inp (by omega)
    have hgv : Float4.load st.2 (4 * b) (q - 4 * b) = st.2 q := by
      unfold Float4.load
      exact congrArg st.2 (by omega)
    by_cases hmode : (mode == 0) = true
    · simp only [hmode, if_true, Float4.fmin, argStep, hcv, hgv]
      by_cases hb : inp (ibase + r * od + q) < st.2 q
      · rw [if_pos hb, min_eq_left (le_of_lt hb)]
      · rw [if_neg hb, min_eq_right (not_lt.1 hb)]
    · simp only [hmode, Bool.false_eq_true, if_false, Float4.fmax, argStep,
        hcv, hgv]
      by_cases hb : st.2 q < inp (ibase + r * od + q)
      · rw [if_pos hb, max_eq_left (le_of_lt hb)]
      · rw [if_neg hb, max_eq_right (not_lt.1 hb)]
  · rw [if_neg hq, if_neg hq]

/-- One `r`-sweep over the `o`-blocks applies the scalar compare step
    pointwise on the output slice `[obase, obase + 4*k)` and the workspace
    `[0, 4*k)`, and touches nothing else. -/
theorem execImplPass (mode : Nat) (inp : Mem) (ibase obase od r : Nat) :
    ∀ (k : Nat) (st : Mem × Mem) (q : Nat),
      ((foldRange (execImplStep mode inp ibase obase od r) st k).1 q =
        if obase ≤ q ∧ q < obase + 4 * k then
          (argStep mode (st.1 q, st.2 (q - obase)) r
            (inp (ibase + r * od + (q - obase)))).1
        else st.1 q) ∧
      ((foldRange (execImplStep mode inp ibase obase od r) st k).2 q =
        if q < 4 * k then
          (argStep mode (st.1 (obase + q), st.2 q) r
            (inp (ibase + r * od + q))).2
        else st.2 q) := by
  intro k
  induction k with
  | zero =>
    intro st q
    rw [foldRange_zero]
    exact ⟨by rw [if_neg (by omega)], by rw [if_neg (by omega)]⟩
  | succ m ih =>
    intro st q
    rw [foldRange_succ]
    have ihq := ih st q
    constructor
    · rw [execImplStep_out]
      by_cases hq : obase + 4 * m ≤ q ∧ q < obase + 4 * m + 4
      · rw [if_pos hq, if_pos (by omega)]
        have h1 : (foldRange (execImplStep mode inp ibase obase od r) st m).1 q =
            st.1 q := by
          rw [ihq.1, if_neg (by omega)]
        have h2 : (foldRange (execImplStep mode inp ibase obase od r) st m).2
            (q - obase) = st.2 (q - obase) := by
          rw [(ih st (q - obase)).2, if_neg (by omega)]
        rw [h1, h2]
      · rw [if_neg hq, ihq.1]
        by_cases hq2 : obase ≤ q ∧ q < obase + 4 * m
        · rw [if_pos hq2, if_pos (by omega)]
        · rw [if_neg hq2, if_neg (by omega)]
    · rw [execImplStep_ws]
      by_cases hq : 4 * m ≤ q ∧ q < 4 * m + 4
      · rw [if_pos hq, if_pos (by omega)]
        have h1 : (foldRange (execImplStep mode inp ibase obase od r) st m).1
            (obase + q) = st.1 (obase + q) := by
          rw [(ih st (obase + q)).1, if_neg (by omega)]
        have h2 : (foldRange (execImplStep mode inp ibase obase od r) st m).2 q =
            st.2 q := by
          rw [ihq.2, if_neg (by omega)]
        rw [h1, h2]
      · rw [if_neg hq, ihq.2]
        by_cases hq2 : q < 4 * m
        · rw [if_pos hq2, if_pos (by omega)]
        · rw [if_neg hq2, if_neg (by omega)]

/-- The `r`-loop of one `ExecImpl` inner iteration: on the output slice and
    the workspace it is the pointwise scalar running-compare fold; output
    positions outside the slice are untouched. -/
theorem execImplRLoop (mode : Nat) (inp : Mem) (ibase obase od : Nat)
    (hod : od % 4 = 0) (o0 w0 : Mem) :
    ∀ (m : Nat),
      (∀ (p : Nat) (a b : Int), p < od → o0 (obase + p) = a → w0 p = b →
        (foldRange (fun st2 rm =>
            foldRange (execImplStep mode inp ibase obase od (rm + 1)) st2 (od / 4))
          (o0, w0) m).1 (obase + p) =
          (foldRange (fun s rm => argStep mode s (rm + 1)
            (inp (ibase + (rm + 1) * od + p))) (a, b) m).1 ∧
        (foldRange (fun st2 rm =>
            foldRange (execImplStep mode inp ibase obase od (rm + 1)) st2 (od / 4))
          (o0, w0) m).2 p =
          (foldRange (fun s rm => argStep mode s (rm + 1)
            (inp (ibase + (rm + 1) * od + p))) (a, b) m).2) ∧
      (∀ q, q < obase ∨ obase + od ≤ q →
        (foldRange (fun st2 rm =>
            foldRange (execImplStep mode inp ibase obase od (rm + 1)) st2 (od / 4))
          (o0, w0) m).1 q = o0 q) := by
  intro m
  induction m with
  | zero =>
    exact ⟨fun p a b hp ha hb => ⟨ha, hb⟩, fun q hq => rfl⟩
  | succ m ihm =>
    obtain ⟨ih1, ih2⟩ := ihm
    have hpass := execImplPass mode inp ibase obase od (m + 1) (od / 4)
      (foldRange (fun st2 rm =>
        foldRange (execImplStep mode inp ibase obase od (rm + 1)) st2 (od / 4))
        (o0, w0) m)
    refine ⟨fun p a b hp ha hb => ?_, fun q hq => ?_⟩
    · obtain ⟨e1, e2⟩ := ih1 p a b hp ha hb
      have ep : obase + p - obase = p := by omega
      constructor
      · rw [foldRange_succ, foldRange_succ, (hpass (obase + p)).1,
          if_pos (by omega), ep, e1, e2]
      · rw [foldRange_succ, foldRange_succ, (hpass p).2,
          if_pos (by omega), e1, e2]
    · rw [foldRange_succ, (hpass q).1, if_neg (by omega), ih2 q hq]

theorem execImplIter_out (mode : Nat) (inp : Mem) (reduceDim od : Nat)
    (hod : od % 4 = 0) (st : Mem × Mem) (i p : Nat) (hp : p < od) :
    (execImplIter mode inp reduceDim od st i).1 (i * od + p) =
      (argPair mode (fun r => inp (i * reduceDim * od + r * od + p)) reduceDim).1 := by
  have h := ((execImplRLoop mode inp (i * reduceDim * od) (i * od) od hod
      (fun q => if i * od ≤ q ∧ q < i * od + od then (0 : Int) else st.1 q)
      (fun q => if q < od then inp (i * reduceDim * od + q) else st.2 q)
      (reduceDim - 1)).1 p 0 (inp (i * reduceDim * od + 0 * od + p)) hp
      (by
        show (if i * od ≤ i * od + p ∧ i * od + p < i * od + od then (0 : Int)
          else st.1 (i * od + p)) = 0
        rw [if_pos (by omega)])
      (by
        show (if p < od then inp (i * reduceDim * od + p) else st.2 p) =
          inp (i * reduceDim * od + 0 * od + p)
        rw [if_pos hp]
        exact congrArg inp (by omega))).1
  exact h

theorem execImplIter_untouched (mode : Nat) (inp : Mem) (reduceDim od : Nat)
    (hod : od % 4 = 0) (st : Mem × Mem) (i q : Nat)
    (hq : q < i * od ∨ i * od + od ≤ q) :
    (execImplIter mode inp reduceDim od st i).1 q = st.1 q := by
  have h := (execImplRLoop mode inp (i * reduceDim * od) (i * od) od hod
      (fun x => if i * od ≤ x ∧ x < i * od + od then (0 : Int) else st.1 x)
      (fun x => if x < od then inp (i * reduceDim * od + x) else st.2 x)
      (reduceDim - 1)).2 q hq
  refine Eq.trans h ?_
  show (if i * od ≤ q ∧ q < i * od + od then (0 : Int) else st.1 q) = st.1 q
  rw [if_neg (by omega)]

/-- Every valid output position of `ExecImpl` holds the scalar
    running-compare fold of its reduction window. -/
theorem execImpl_at (mode : Nat) (inp : Mem) (out0 ws0 : Mem)
    (innerDim reduceDim od : Nat) (hod : od % 4 = 0) (i p : Nat)
    (hi : i < innerDim) (hp : p < od) :
    (execImpl mode inp out0 ws0 innerDim reduceDim od).1 (i * od + p) =
      (argPair mode (fun r => inp (i * reduceDim * od + r * od + p)) reduceDim).1 := by
  revert hi
  unfold execImpl
  induction innerDim with
  | zero =>
    intro hi
    omega
  | succ m ihm =>
    intro hi
    rw [foldRange_succ]
    rcases Nat.lt_or_ge i m with him | him
    · have hq : i * od + p < m * od ∨ m * od + od ≤ i * od + p := by
        left
        have h2 : (i + 1) * od ≤ m * od := Nat.mul_le_mul_right od (by omega)
        rw [Nat.succ_mul] at h2
        omega
      rw [execImplIter_untouched mode inp reduceDim od hod _ m (i * od + p) hq]
      exact ihm him
    · have him2 : i = m := by omega
      subst him2
      exact execImplIter_out mode inp reduceDim od hod _ i p hp

theorem execImpl_untouched (mode : Nat) (inp : Mem) (out0 ws0 : Mem)
    (innerDim reduceDim od : Nat) (hod : od % 4 = 0) (q : Nat)
    (hq : innerDim * od ≤ q) :
    (execImpl mode inp out0 ws0 innerDim reduceDim od).1 q = out0 q := by
  revert hq
  unfold execImpl
  induction innerDim with
  | zero =>
    intro hq
    rfl
  | succ m ihm =>
    intro hq
    rw [Nat.succ_mul] at hq
    rw [foldRange_succ,
      execImplIter_untouched mode inp reduceDim od hod _ m q (Or.inr (by omega))]
    exact ihm (by omega)

/-! ### Mode swap under negation -/

theorem better_neg (mode : Nat) (a b : Int) :
    Better mode (-a) (-b) ↔ Better (1 - mode) a b := by
  unfold Better
  rcases Nat.eq_zero_or_pos mode with hm | hm
  · subst hm
    simp
  · rw [if_neg (by simp; omega), if_pos (by simp; omega)]
    omega

theorem argBestOn_neg {mode : Nat} {vals : Nat → Int} {S : Nat → Prop} {j : Nat}
    (h : ArgBestOn mode (fun k => -(vals k)) S j) :
    ArgBestOn (1 - mode) vals S j := by
  obtain ⟨h1, h2, h3⟩ := h
  refine ⟨h1, ?_, ?_⟩
  · intro k hk
    rw [← better_neg]
    exact h2 k hk
  · intro k hk hlt
    rw [← better_neg]
    exact h3 k hk hlt

theorem naiveArgExt_neg (mode : Nat) (vals : Nat → Int) (len : Nat)
    (hlen : 1 ≤ len) :
    naiveArgExt mode (fun k => -(vals k)) len = naiveArgExt (1 - mode) vals len :=
  argBestOn_unique (argBestOn_neg (naiveArgExt_best mode (fun k => -(vals k)) len hlen))
    (naiveArgExt_best (1 - mode) vals len hlen)

/-! ### Per-axis output characterisation of the dispatcher -/

theorem exec_axis0_out (mode bs n c h w : Nat) (inp out0 ws0 : Mem)
    (hn : 1 ≤ n) (p : Nat) (hp : p < (c + 3) / 4 * 4 * h * w) :
    (exec 0 mode bs n c h w inp out0 ws0).out p =
      ((naiveArgExt mode (fun r => inp (r * ((c + 3) / 4 * 4 * h * w) + p)) n :
        Nat) : Int) := by
  have hod : ((c + 3) / 4 * 4 * h * w) % 4 = 0 := by
    obtain ⟨u, hu⟩ : ∃ u, (c + 3) / 4 * 4 * h * w = 4 * u :=
      ⟨(c + 3) / 4 * h * w, by ring⟩
    omega
  have hout := execImpl_at mode inp out0 ws0 1 n ((c + 3) / 4 * 4 * h * w) hod
    0 p (by omega) hp
  have hv : (fun r => inp (0 * n * ((c + 3) / 4 * 4 * h * w) +
        r * ((c + 3) / 4 * 4 * h * w) + p)) =
      (fun r => inp (r * ((c + 3) / 4 * 4 * h * w) + p)) :=
    funext fun r => congrArg inp (by omega)
  rw [hv] at hout
  have hpos : 0 * ((c + 3) / 4 * 4 * h * w) + p = p := by omega
  rw [hpos] at hout
  have hfield : (exec 0 mode bs n c h w inp out0 ws0).out =
      (execImpl mode inp out0 ws0 1 n ((c + 3) / 4 * 4 * h * w)).1 := rfl
  rw [hfield, hout, argPair_fst_eq_naive mode _ n hn]

theorem exec_axis2_out (mode bs n c h w : Nat) (inp out0 ws0 : Mem)
    (hh : 1 ≤ h) (i p : Nat) (hi : i < n * ((c + 3) / 4 * 4) / 4)
    (hp : p < w * 4) :
    (exec 2 mode bs n c h w inp out0 ws0).out (i * (w * 4) + p) =
      ((naiveArgExt mode (fun r => inp (i * h * (w * 4) + r * (w * 4) + p)) h :
        Nat) : Int) := by
  have hod : (w * 4) % 4 = 0 := by omega
  have hout := execImpl_at mode inp out0 ws0 (n * ((c + 3) / 4 * 4) / 4) h
    (w * 4) hod i p hi hp
  have hfield : (exec 2 mode bs n c h w inp out0 ws0).out =
      (execImpl mode inp out0 ws0 (n * ((c + 3) / 4 * 4) / 4) h (w * 4)).1 := rfl
  rw [hfield, hout, argPair_fst_eq_naive mode _ h hh]

theorem exec_axis3_out (mode bs n c h w : Nat) (inp out0 ws0 : Mem)
    (hw : 1 ≤ w) (q : Nat) (hq : q < 4 * (n * ((c + 3) / 4) * h)) :
    (exec 3 mode bs n c h w inp out0 ws0).out q =
      ((naiveArgExt mode (fun r => inp (q / 4 * w * 4 + r * 4 + q % 4)) w :
        Nat) : Int) := by
  have hfield : (exec 3 mode bs n c h w inp out0 ws0).out =
      execDimW mode inp n c h w out0 := rfl
  rw [hfield, execDimW_flat, if_pos hq]
  have hlane := execNoWorkspace_lane inp (q / 4 * w * 4) w 4 mode (q % 4)
  have h1 : (execNoWorkspace inp (q / 4 * w * 4) w 4 mode).1 (q % 4) =
      (argPair mode (fun r => inp (q / 4 * w * 4 + r * 4 + q % 4)) w).1 :=
    congrArg Prod.fst hlane
  rw [h1, argPair_fst_eq_naive mode _ w hw]

theorem exec_axis1_out (mode bs n c h w : Nat) (inp out0 ws0 : Mem)
    (hc : 1 ≤ c) (q : Nat) (hq : q < n * (h * w * 4)) :
    (exec 1 mode bs n c h w inp out0 ws0).out q =
      (if q % 4 = 0 then
        ((naiveArgExt mode
          (chanVals inp
            (q / (h * w * 4) * ((c + 3) / 4) * (h * w * 4) +
              4 * (q % (h * w * 4) / 4)) (h * w * 4)) c : Nat) : Int)
      else 0) := by
  have hfield : (exec 1 mode bs n c h w inp out0 ws0).out =
      execDimC mode inp n c h w out0 := rfl
  rw [hfield, execDimC_flat, if_pos hq]
  by_cases h4 : q % 4 = 0
  · rw [if_pos h4, if_pos h4]
    obtain ⟨J, hJeq, hJbest⟩ := dimCBlock_best mode inp c (h * w * 4)
      (q / (h * w * 4) * ((c + 3) / 4) * (h * w * 4) +
        4 * (q % (h * w * 4) / 4)) hc
    have h2 : (dimCBlock mode inp c (h * w * 4)
        (q / (h * w * 4) * ((c + 3) / 4) * (h * w * 4) +
          4 * (q % (h * w * 4) / 4))).2 = ((J : Nat) : Int) :=
      congrArg Prod.snd hJeq
    rw [h2]
    congr 1
    exact argBestOn_unique hJbest (naiveArgExt_best mode _ c hc)
  · rw [if_neg h4, if_neg h4]

theorem naiveArgExt_lt (mode : Nat) (vals : Nat → Int) (len : Nat)
    (hlen : 1 ≤ len) : naiveArgExt mode vals len < len :=
  (naiveArgExt_best mode vals len hlen).1

theorem naiveArgExt_one (mode : Nat) (vals : Nat → Int) :
    naiveArgExt mode vals 1 = 0 := by
  rw [show (1 : Nat) = 0 + 1 from rfl, naiveArgExt_succ]
  simp [naiveArgExt, better_irrefl]

/-- The naive scan reports an index no larger than any index attaining the
    extreme value. -/
theorem naiveArgExt_le_of_extreme (mode : Nat) (vals : Nat → Int) (len j : Nat)
    (hlen : 1 ≤ len) (hj : j < len)
    (hext : ∀ k, k < len → ¬ Better mode (vals k) (vals j)) :
    naiveArgExt mode vals len ≤ j := by
  obtain ⟨hlt, hnb, hmin⟩ := naiveArgExt_best mode vals len hlen
  by_contra hcon
  exact hext (naiveArgExt mode vals len) hlt (hmin j hj (by omega))

theorem exec_axis0_untouched (mode bs n c h w : Nat) (inp out0 ws0 : Mem)
    (q : Nat) (hq : (c + 3) / 4 * 4 * h * w ≤ q) :
    (exec 0 mode bs n c h w inp out0 ws0).out q = out0 q := by
  have hod : ((c + 3) / 4 * 4 * h * w) % 4 = 0 := by
    obtain ⟨u, hu⟩ : ∃ u, (c + 3) / 4 * 4 * h * w = 4 * u :=
      ⟨(c + 3) / 4 * h * w, by ring⟩
    omega
  have hfield : (exec 0 mode bs n c h w inp out0 ws0).out =
      (execImpl mode inp out0 ws0 1 n ((c + 3) / 4 * 4 * h * w)).1 := rfl
  rw [hfield]
  exact execImpl_untouched mode inp out0 ws0 1 n _ hod q (by omega)

theorem exec_axis2_untouched (mode bs n c h w : Nat) (inp out0 ws0 : Mem)
    (q : Nat) (hq : n * ((c + 3) / 4 * 4) / 4 * (w * 4) ≤ q) :
    (exec 2 mode bs n c h w inp out0 ws0).out q = out0 q := by
  have hod : (w * 4) % 4 = 0 := by omega
  have hfield : (exec 2 mode bs n c h w inp out0 ws0).out =
      (execImpl mode inp out0 ws0 (n * ((c + 3) / 4 * 4) / 4) h (w * 4)).1 := rfl
  rw [hfield]
  exact execImpl_untouched mode inp out0 ws0 _ h _ hod q hq

theorem exec_axis1_untouched (mode bs n c h w : Nat) (inp out0 ws0 : Mem)
    (q : Nat) (hq : n * (h * w * 4) ≤ q) :
    (exec 1 mode bs n c h w inp out0 ws0).out q = out0 q := by
  have hfield : (exec 1 mode bs n c h w inp out0 ws0).out =
      execDimC mode inp n c h w out0 := rfl
  rw [hfield, execDimC_flat, if_neg (by omega)]

theorem exec_axis3_untouched (mode bs n c h w : Nat) (inp out0 ws0 : Mem)
    (q : Nat) (hq : 4 * (n * ((c + 3) / 4) * h) ≤ q) :
    (exec 3 mode bs n c h w inp out0 ws0).out q = out0 q := by
  have hfield : (exec 3 mode bs n c h w inp out0 ws0).out =
      execDimW mode inp n c h w out0 := rfl
  rw [hfield, execDimW_flat, if_neg (by omega)]

theorem exec_status_ne_modelErr (axis mode bs n c h w : Nat)
    (inp out0 ws0 : Mem) :
    (exec axis mode bs n c h w inp out0 ws0).status ≠ .modelErr := by
  unfold exec
  split_ifs <;> simp

theorem doForward_supported (inDT : DataType)
    (hdt : inDT = .float ∨ inDT = .bfp16) (axis mode n c h w : Nat)
    (inp out0 ws0 : Mem) :
    doForward inDT .float axis mode n c h w inp out0 ws0 =
      exec axis mode inDT.bytes n c h w inp out0 ws0 := by
  rcases hdt with h | h <;> subst h <;> rfl

/-- Channel axis, by output group: lane 0 carries the winning channel of a
    naive scan, lanes 1..3 are zero. -/
theorem exec_axis1_at_group (mode bs n c h w : Nat) (inp out0 ws0 : Mem)
    (hc : 1 ≤ c) (i s : Nat) (hi : i < n) (hs : s < h * w) (l : Nat)
    (hl : l < 4) :
    (exec 1 mode bs n c h w inp out0 ws0).out (i * (h * w * 4) + 4 * s + l) =
      (if l = 0 then
        ((naiveArgExt mode (chanVals inp
          (i * ((c + 3) / 4) * (h * w * 4) + 4 * s) (h * w * 4)) c : Nat) : Int)
      else 0) := by
  have hq4 : (i * (h * w * 4) + 4 * s + l) % 4 = l := by
    obtain ⟨u, hu⟩ : ∃ u, i * (h * w * 4) = 4 * u := ⟨i * (h * w), by ring⟩
    omega
  have hs4 : 4 * s + 4 ≤ h * w * 4 := by
    have h2 : (s + 1) * 4 ≤ h * w * 4 := Nat.mul_le_mul_right 4 (by omega)
    omega
  have hlt : i * (h * w * 4) + 4 * s + l < n * (h * w * 4) := by
    have h2 : (i + 1) * (h * w * 4) ≤ n * (h * w * 4) :=
      Nat.mul_le_mul_right _ (by omega)
    rw [Nat.succ_mul] at h2
    omega
  have hout := exec_axis1_out mode bs n c h w inp out0 ws0 hc _ hlt
  have hdiv : (i * (h * w * 4) + 4 * s + l) / (h * w * 4) = i := by
    apply Nat.div_eq_of_lt_le
    · omega
    · show i * (h * w * 4) + 4 * s + l < (i + 1) * (h * w * 4)
      have h2 : (i + 1) * (h * w * 4) = i * (h * w * 4) + h * w * 4 := by ring
      omega
  have hmod : (i * (h * w * 4) + 4 * s + l) % (h * w * 4) = 4 * s + l := by
    have h5 := Nat.mod_add_div (i * (h * w * 4) + 4 * s + l) (h * w * 4)
    rw [hdiv] at h5
    have h6 : h * w * 4 * i = i * (h * w * 4) := mul_comm _ _
    omega
  rw [hout, hq4, hdiv, hmod]
  have hmd : (4 * s + l) / 4 = s := by omega
  rw [hmd]

/-! ### The claims -/

/-- C1: for every input tensor, every axis in {0,1,2,3}, and both modes,
    the index reported at each output position equals the position of the
    extreme value found by a naive linear scan along the reduced axis, with
    ties resolved to the smallest index. -/
theorem c1_reported_index_matches_naive_scan (mode bs n c h w : Nat)
    (inp out0 ws0 : Mem) (hn : 1 ≤ n) (hc : 1 ≤ c) (hh : 1 ≤ h) (hw : 1 ≤ w) :
    (∀ p, p < (c + 3) / 4 * 4 * h * w →
      (exec 0 mode bs n c h w inp out0 ws0).out p =
        ((naiveArgExt mode
          (fun r => inp (r * ((c + 3) / 4 * 4 * h * w) + p)) n : Nat) : Int)) ∧
    (∀ i s, i < n → s < h * w →
      (exec 1 mode bs n c h w inp out0 ws0).out (i * (h * w * 4) + 4 * s + 0) =
        ((naiveArgExt mode (chanVals inp
          (i * ((c + 3) / 4) * (h * w * 4) + 4 * s) (h * w * 4)) c : Nat) : Int)) ∧
    (∀ i p, i < n * ((c + 3) / 4 * 4) / 4 → p < w * 4 →
      (exec 2 mode bs n c h w inp out0 ws0).out (i * (w * 4) + p) =
        ((naiveArgExt mode
          (fun r => inp (i * h * (w * 4) + r * (w * 4) + p)) h : Nat) : Int)) ∧
    (∀ i l, i < n * ((c + 3) / 4) * h → l < 4 →
      (exec 3 mode bs n c h w inp out0 ws0).out (i * 4 + l) =
        ((naiveArgExt mode
          (fun r => inp (i * w * 4 + r * 4 + l)) w : Nat) : Int)) := by
  refine ⟨fun p hp => exec_axis0_out mode bs n c h w inp out0 ws0 hn p hp,
    fun i s hi hs => ?_,
    fun i p hi hp => exec_axis2_out mode bs n c h w inp out0 ws0 hh i p hi hp,
    fun i l hi hl => ?_⟩
  · rw [exec_axis1_at_group mode bs n c h w inp out0 ws0 hc i s hi hs 0
      (by omega), if_pos rfl]
  · have hq : i * 4 + l < 4 * (n * ((c + 3) / 4) * h) := by
      have h2 : (i + 1) * 4 ≤ n * ((c + 3) / 4) * h * 4 :=
        Nat.mul_le_mul_right 4 (by omega)
      have h3 : n * ((c + 3) / 4) * h * 4 = 4 * (n * ((c + 3) / 4) * h) := by
        ring
      omega
    have hout := exec_axis3_out mode bs n c h w inp out0 ws0 hw _ hq
    have hdiv : (i * 4 + l) / 4 = i := by omega
    have hmod : (i * 4 + l) % 4 = l := by omega
    rw [hout, hdiv, hmod]

/-- C1 witness: width-axis argmax of `[2, 5, 5]` reports index 1. -/
theorem c1_witness :
    (exec 3 1 4 1 4 1 3 (fun q => if q < 4 then (2 : Int) else 5)
      (fun _ => 0) (fun _ => 0)).out (0 * 4 + 0) = 1 := by
  have h := (c1_reported_index_matches_naive_scan 1 4 1 4 1 3
      (fun q => if q < 4 then (2 : Int) else 5) (fun _ => 0) (fun _ => 0)
      (by norm_num) (by norm_num) (by norm_num) (by norm_num)).2.2.2 0 0
      (by norm_num) (by norm_num)
  rw [h]
  decide

/-- C2: in every reduction strategy and both modes, the running-compare
    step replaces the running extreme iff the candidate is strictly better;
    an equal candidate never replaces the stored pair; consequently (via
    the naive-scan characterisation that each strategy's output realises),
    whenever two equal extreme values occur along the reduced axis, the
    smaller index is reported. -/
theorem c2_strict_replacement_and_ties (mode bs n c h w : Nat)
    (inp out0 ws0 : Mem) (hn : 1 ≤ n) (hc : 1 ≤ c) (hh : 1 ≤ h) (hw : 1 ≤ w) :
    (∀ (s : Int × Int) (r : Nat) (cv : Int),
      (Better mode cv s.2 → argStep mode s r cv = ((r : Int), cv)) ∧
      (¬ Better mode cv s.2 → argStep mode s r cv = s) ∧
      (cv = s.2 → argStep mode s r cv = s)) ∧
    (∀ (vals : Nat → Int) (len j j' : Nat), 1 ≤ len → j < j' → j' < len →
      vals j = vals j' → (∀ k, k < len → ¬ Better mode (vals k) (vals j)) →
      naiveArgExt mode vals len ≤ j) ∧
    (∀ p, p < (c + 3) / 4 * 4 * h * w →
      (exec 0 mode bs n c h w inp out0 ws0).out p =
        ((naiveArgExt mode
          (fun r => inp (r * ((c + 3) / 4 * 4 * h * w) + p)) n : Nat) : Int)) ∧
    (∀ i s, i < n → s < h * w →
      (exec 1 mode bs n c h w inp out0 ws0).out (i * (h * w * 4) + 4 * s + 0) =
        ((naiveArgExt mode (chanVals inp
          (i * ((c + 3) / 4) * (h * w * 4) + 4 * s) (h * w * 4)) c : Nat) : Int)) ∧
    (∀ i p, i < n * ((c + 3) / 4 * 4) / 4 → p < w * 4 →
      (exec 2 mode bs n c h w inp out0 ws0).out (i * (w * 4) + p) =
        ((naiveArgExt mode
          (fun r => inp (i * h * (w * 4) + r * (w * 4) + p)) h : Nat) : Int)) ∧
    (∀ i l, i < n * ((c + 3) / 4) * h → l < 4 →
      (exec 3 mode bs n c h w inp out0 ws0).out (i * 4 + l) =
        ((naiveArgExt mode
          (fun r => inp (i * w * 4 + r * 4 + l)) w : Nat) : Int)) := by
  refine ⟨fun s r cv => ⟨fun hb => ?_, fun hb => ?_, fun he => ?_⟩,
    fun vals len j j' hlen hjj hj' he hext => ?_,
    fun p hp => exec_axis0_out mode bs n c h w inp out0 ws0 hn p hp,
    fun i s hi hs => ?_,
    fun i p hi hp => exec_axis2_out mode bs n c h w inp out0 ws0 hh i p hi hp,
    fun i l hi hl => ?_⟩
  · rw [argStep_eq, if_pos hb]
  · rw [argStep_eq, if_neg hb]
  · rw [argStep_eq, if_neg (he ▸ better_irrefl mode s.2)]
  · exact naiveArgExt_le_of_extreme mode vals len j hlen (by omega) hext
  · rw [exec_axis1_at_group mode bs n c h w inp out0 ws0 hc i s hi hs 0
      (by omega), if_pos rfl]
  · have hq : i * 4 + l < 4 * (n * ((c + 3) / 4) * h) := by
      have h2 : (i + 1) * 4 ≤ n * ((c + 3) / 4) * h * 4 :=
        Nat.mul_le_mul_right 4 (by omega)
      have h3 : n * ((c + 3) / 4) * h * 4 = 4 * (n * ((c + 3) / 4) * h) := by
        ring
      omega
    have hout := exec_axis3_out mode bs n c h w inp out0 ws0 hw _ hq
    have hdiv : (i * 4 + l) / 4 = i := by omega
    have hmod : (i * 4 + l) % 4 = l := by omega
    rw [hout, hdiv, hmod]

/-- C2 witness: a strictly better candidate replaces the pair, an equal
    candidate does not, and with equal extremes at indices 1 and 2 the scan
    reports an index at most 1. -/
theorem c2_witness :
    argStep 0 ((0 : Int), (5 : Int)) 1 3 = ((1 : Int), 3) ∧
    argStep 0 ((0 : Int), (5 : Int)) 1 5 = ((0 : Int), 5) ∧
    naiveArgExt 0 (fun k => if k = 0 then (7 : Int) else 2) 3 ≤ 1 := by
  have h := c2_strict_replacement_and_ties 0 4 1 1 1 1 (fun _ => 0)
    (fun _ => 0) (fun _ => 0) (by norm_num) (by norm_num) (by norm_num)
    (by norm_num)
  refine ⟨(h.1 ((0 : Int), (5 : Int)) 1 3).1 (by decide),
    (h.1 ((0 : Int), (5 : Int)) 1 5).2.2 rfl,
    h.2.1 (fun k => if k = 0 then (7 : Int) else 2) 3 1 2 (by norm_num)
      (by norm_num) (by norm_num) (by decide) (by decide)⟩

/-- C3: for the channel-axis reduction with `C` not a multiple of 4, only
    the first `C` logical channels are candidates (the reported index is a
    valid channel and is the smallest-index extreme over exactly those
    channels); in particular for `C = 5` packed to 8 with values
    `[1,2,3,4,5]` (padding lanes holding 100), the argmax index is 4. -/
theorem c3_channel_remainder (mode bs n c h w : Nat) (inp out0 ws0 : Mem)
    (hc : 1 ≤ c) (hr : c % 4 ≠ 0) (hn : 1 ≤ n) (hh : 1 ≤ h) (hw : 1 ≤ w) :
    (∀ i s, i < n → s < h * w →
      ∃ j : Nat, j < c ∧
        (exec 1 mode bs n c h w inp out0 ws0).out (i * (h * w * 4) + 4 * s + 0) =
          ((j : Nat) : Int) ∧
        ArgBestOn mode (chanVals inp
          (i * ((c + 3) / 4) * (h * w * 4) + 4 * s) (h * w * 4))
          (fun ch => ch < c) j) ∧
    (exec 1 1 4 1 5 1 1 (fun q => if q < 5 then ((q : Int) + 1) else 100)
      (fun _ => 0) (fun _ => 0)).out 0 = 4 := by
  constructor
  · intro i s hi hs
    refine ⟨naiveArgExt mode (chanVals inp
      (i * ((c + 3) / 4) * (h * w * 4) + 4 * s) (h * w * 4)) c,
      naiveArgExt_lt mode _ c hc, ?_, naiveArgExt_best mode _ c hc⟩
    rw [exec_axis1_at_group mode bs n c h w inp out0 ws0 hc i s hi hs 0
      (by omega), if_pos rfl]
  · decide

/-- C3 witness: the general part applied at the concrete `C = 5` tensor. -/
theorem c3_witness :
    ∃ j : Nat, j < 5 ∧
      (exec 1 1 4 1 5 1 1 (fun q => if q < 5 then ((q : Int) + 1) else 100)
        (fun _ => 0) (fun _ => 0)).out (0 * (1 * 1 * 4) + 4 * 0 + 0) =
        ((j : Nat) : Int) ∧
      ArgBestOn 1 (chanVals (fun q => if q < 5 then ((q : Int) + 1) else 100)
        (0 * ((5 + 3) / 4) * (1 * 1 * 4) + 4 * 0) (1 * 1 * 4))
        (fun ch => ch < 5) j :=
  (c3_channel_remainder 1 4 1 5 1 1
    (fun q => if q < 5 then ((q : Int) + 1) else 100) (fun _ => 0) (fun _ => 0)
    (by norm_num) (by norm_num) (by norm_num) (by norm_num) (by norm_num)).1
    0 0 (by norm_num) (by norm_num)

/-- C4: the call fails with the unsupported-type (model) error exactly when
    the output element type is not float or the input element type is
    neither float nor bfp16; a non-float output type fails identically for
    every axis, mode and input (checked before any axis-specific work), an
    unsupported input type fails identically for every axis (checked right
    after), and on such failures the output memory is returned unchanged. -/
theorem c4_type_check_errors (inDT outDT : DataType) (axis mode n c h w : Nat)
    (inp out0 ws0 : Mem) :
    ((doForward inDT outDT axis mode n c h w inp out0 ws0).status =
        StatusCode.modelErr ↔
      (outDT ≠ DataType.float ∨
        (inDT ≠ DataType.float ∧ inDT ≠ DataType.bfp16))) ∧
    (outDT ≠ DataType.float →
      doForward inDT outDT axis mode n c h w inp out0 ws0 =
        ⟨StatusCode.modelErr, out0, none⟩) ∧
    (outDT = DataType.float → inDT ≠ DataType.float → inDT ≠ DataType.bfp16 →
      doForward inDT outDT axis mode n c h w inp out0 ws0 =
        ⟨StatusCode.modelErr, out0, none⟩) := by
  unfold doForward
  by_cases ho : outDT ≠ DataType.float
  · rw [if_pos ho]
    exact ⟨by simp [ho], fun _ => rfl, fun hfl => absurd hfl ho⟩
  · rw [if_neg ho]
    push_neg at ho
    by_cases hf : inDT = DataType.float
    · rw [if_pos hf]
      refine ⟨?_, fun hbad => absurd ho hbad, fun _ hf2 _ => absurd hf hf2⟩
      constructor
      · intro hst
        exact absurd hst (exec_status_ne_modelErr axis mode _ n c h w inp out0 ws0)
      · rintro (hbad | ⟨hf2, _⟩)
        · exact absurd ho hbad
        · exact absurd hf hf2
    · rw [if_neg hf]
      by_cases hb : inDT = DataType.bfp16
      · rw [if_pos hb]
        refine ⟨?_, fun hbad => absurd ho hbad, fun _ _ hb2 => absurd hb hb2⟩
        constructor
        · intro hst
          exact absurd hst
            (exec_status_ne_modelErr axis mode _ n c h w inp out0 ws0)
        · rintro (hbad | ⟨_, hb2⟩)
          · exact absurd ho hbad
          · exact absurd hb hb2
      · rw [if_neg hb]
        exact ⟨by simp [hf, hb], fun hbad => absurd ho hbad, fun _ _ _ => rfl⟩

/-- C4 witness: an int8 output type fails with the model error and leaves
    the output memory untouched, and the status iff holds there. -/
theorem c4_witness :
    doForward DataType.float DataType.int8 0 0 1 1 1 1 (fun _ => (0 : Int))
        (fun _ => 0) (fun _ => 0) =
      ⟨StatusCode.modelErr, (fun _ => 0), none⟩ ∧
    (doForward DataType.float DataType.int8 0 0 1 1 1 1 (fun _ => (0 : Int))
        (fun _ => 0) (fun _ => 0)).status = StatusCode.modelErr :=
  ⟨(c4_type_check_errors DataType.float DataType.int8 0 0 1 1 1 1
      (fun _ => 0) (fun _ => 0) (fun _ => 0)).2.1 (by decide),
    (c4_type_check_errors DataType.float DataType.int8 0 0 1 1 1 1
      (fun _ => 0) (fun _ => 0) (fun _ => 0)).1.mpr (Or.inl (by decide))⟩

/-- C9: an axis outside {0,1,2,3} fails in the dispatcher with the
    parameter error, the result never depends on tensor element memory,
    and nothing is written to the output. -/
theorem c9_invalid_axis_param_error (axis mode bs n c h w : Nat)
    (haxis : 4 ≤ axis) (inp out0 ws0 : Mem) :
    exec axis mode bs n c h w inp out0 ws0 =
      ⟨StatusCode.paramErr, out0, none⟩ ∧
    (∀ inp' : Mem, exec axis mode bs n c h w inp' out0 ws0 =
      exec axis mode bs n c h w inp out0 ws0) ∧
    (∀ inDT : DataType, inDT = DataType.float ∨ inDT = DataType.bfp16 →
      doForward inDT DataType.float axis mode n c h w inp out0 ws0 =
        ⟨StatusCode.paramErr, out0, none⟩) := by
  have hexec : ∀ (inpx : Mem) (bsx : Nat),
      exec axis mode bsx n c h w inpx out0 ws0 =
        ⟨StatusCode.paramErr, out0, none⟩ := by
    intro inpx bsx
    unfold exec
    rw [if_neg (show ¬ ((axis == 0) = true) by simp; omega),
      if_neg (show ¬ ((axis == 1) = true) by simp; omega),
      if_neg (show ¬ ((axis == 2) = true) by simp; omega),
      if_neg (show ¬ ((axis == 3) = true) by simp; omega)]
  refine ⟨hexec inp bs, fun inp' => (hexec inp' bs).trans (hexec inp bs).symm,
    fun inDT hdt => ?_⟩
  rw [doForward_supported inDT hdt]
  exact hexec inp inDT.bytes

/-- C9 witness: axis 7 at a concrete call. -/
theorem c9_witness :
    exec 7 0 4 1 1 1 1 (fun _ => (0 : Int)) (fun _ => 0) (fun _ => 0) =
      ⟨StatusCode.paramErr, (fun _ => 0), none⟩ :=
  (c9_invalid_axis_param_error 7 0 4 1 1 1 1 (by norm_num) (fun _ => 0)
    (fun _ => 0) (fun _ => 0)).1

/-- C5: for both supported input element types and every axis, the output
    positions hold the winning indices; for the channel axis each output
    group has the scalar winning index in lane 0 and zero in lanes 1..3. -/
theorem c5_output_values_are_indices (inDT : DataType)
    (hdt : inDT = DataType.float ∨ inDT = DataType.bfp16)
    (mode n c h w : Nat) (inp out0 ws0 : Mem)
    (hn : 1 ≤ n) (hc : 1 ≤ c) (hh : 1 ≤ h) (hw : 1 ≤ w) :
    (∀ p, p < (c + 3) / 4 * 4 * h * w →
      (doForward inDT DataType.float 0 mode n c h w inp out0 ws0).out p =
        ((naiveArgExt mode
          (fun r => inp (r * ((c + 3) / 4 * 4 * h * w) + p)) n : Nat) : Int)) ∧
    (∀ i s l, i < n → s < h * w → l < 4 →
      (doForward inDT DataType.float 1 mode n c h w inp out0 ws0).out
          (i * (h * w * 4) + 4 * s + l) =
        (if l = 0 then
          ((naiveArgExt mode (chanVals inp
            (i * ((c + 3) / 4) * (h * w * 4) + 4 * s) (h * w * 4)) c : Nat) : Int)
        else 0)) ∧
    (∀ i p, i < n * ((c + 3) / 4 * 4) / 4 → p < w * 4 →
      (doForward inDT DataType.float 2 mode n c h w inp out0 ws0).out
          (i * (w * 4) + p) =
        ((naiveArgExt mode
          (fun r => inp (i * h * (w * 4) + r * (w * 4) + p)) h : Nat) : Int)) ∧
    (∀ i l, i < n * ((c + 3) / 4) * h → l < 4 →
      (doForward inDT DataType.float 3 mode n c h w inp out0 ws0).out
          (i * 4 + l) =
        ((naiveArgExt mode
          (fun r => inp (i * w * 4 + r * 4 + l)) w : Nat) : Int)) := by
  refine ⟨fun p hp => ?_, fun i s l hi hs hl => ?_, fun i p hi hp => ?_,
    fun i l hi hl => ?_⟩ <;> rw [doForward_supported inDT hdt]
  · exact exec_axis0_out mode inDT.bytes n c h w inp out0 ws0 hn p hp
  · exact exec_axis1_at_group mode inDT.bytes n c h w inp out0 ws0 hc i s hi hs
      l hl
  · exact exec_axis2_out mode inDT.bytes n c h w inp out0 ws0 hh i p hi hp
  · have hq : i * 4 + l < 4 * (n * ((c + 3) / 4) * h) := by
      have h2 : (i + 1) * 4 ≤ n * ((c + 3) / 4) * h * 4 :=
        Nat.mul_le_mul_right 4 (by omega)
      have h3 : n * ((c + 3) / 4) * h * 4 = 4 * (n * ((c + 3) / 4) * h) := by
        ring
      omega
    have hout := exec_axis3_out mode inDT.bytes n c h w inp out0 ws0 hw _ hq
    have hdiv : (i * 4 + l) / 4 = i := by omega
    have hmod : (i * 4 + l) % 4 = l := by omega
    rw [hout, hdiv, hmod]

/-- C5 witness: channel axis with bfp16 input, `C = 5` values
    `[1,2,3,4,5]` — lane 1 of the output group is zero and lane 0 is the
    winning index 4. -/
theorem c5_witness :
    (doForward DataType.bfp16 DataType.float 1 1 1 5 1 1
      (fun q => if q < 5 then ((q : Int) + 1) else 100) (fun _ => 0)
      (fun _ => 0)).out (0 * (1 * 1 * 4) + 4 * 0 + 1) = 0 ∧
    (doForward DataType.bfp16 DataType.float 1 1 1 5 1 1
      (fun q => if q < 5 then ((q : Int) + 1) else 100) (fun _ => 0)
      (fun _ => 0)).out (0 * (1 * 1 * 4) + 4 * 0 + 0) = 4 := by
  have h := (c5_output_values_are_indices DataType.bfp16 (Or.inr rfl) 1 1 5 1 1
    (fun q => if q < 5 then ((q : Int) + 1) else 100) (fun _ => 0) (fun _ => 0)
    (by norm_num) (by norm_num) (by norm_num) (by norm_num)).2.1
  constructor
  · rw [h 0 0 1 (by norm_num) (by norm_num) (by norm_num)]
    norm_num
  · rw [h 0 0 0 (by norm_num) (by norm_num) (by norm_num)]
    decide

/-- C6: for each axis the dispatcher's `(inner, reduce, outer)` extents
    multiply to the padded element count `N * (ceil(C/4)*4) * H * W`, and
    the batch/height strategies request exactly `outer_dim * byte_size`
    workspace bytes while channel/width request none. -/
theorem c6_extents_partition (mode bs n c h w : Nat) (inp out0 ws0 : Mem) :
    (armExtents 0 n c h w = some (1, n, (c + 3) / 4 * 4 * h * w) ∧
      1 * n * ((c + 3) / 4 * 4 * h * w) = n * ((c + 3) / 4 * 4) * h * w) ∧
    (armExtents 1 n c h w = some (n, (c + 3) / 4, h * w * 4) ∧
      n * ((c + 3) / 4) * (h * w * 4) = n * ((c + 3) / 4 * 4) * h * w) ∧
    (armExtents 2 n c h w = some (n * ((c + 3) / 4 * 4) / 4, h, w * 4) ∧
      n * ((c + 3) / 4 * 4) / 4 * h * (w * 4) = n * ((c + 3) / 4 * 4) * h * w) ∧
    (armExtents 3 n c h w = some (n * ((c + 3) / 4) * h, w, 4) ∧
      n * ((c + 3) / 4) * h * w * 4 = n * ((c + 3) / 4 * 4) * h * w) ∧
    ((exec 0 mode bs n c h w inp out0 ws0).wsRequest =
      some ((c + 3) / 4 * 4 * h * w * bs)) ∧
    ((exec 2 mode bs n c h w inp out0 ws0).wsRequest = some (w * 4 * bs)) ∧
    ((exec 1 mode bs n c h w inp out0 ws0).wsRequest = none) ∧
    ((exec 3 mode bs n c h w inp out0 ws0).wsRequest = none) := by
  have hdd : n * ((c + 3) / 4 * 4) / 4 = n * ((c + 3) / 4) := by
    rw [show n * ((c + 3) / 4 * 4) = n * ((c + 3) / 4) * 4 from by ring,
      Nat.mul_div_cancel _ (by norm_num)]
  refine ⟨⟨rfl, by ring⟩, ⟨rfl, by ring⟩, ⟨rfl, ?_⟩, ⟨rfl, by ring⟩,
    rfl, rfl, rfl, rfl⟩
  rw [hdd]
  ring

/-- C7: when the reduce extent equals 1 (batch, channel, height or width
    extent 1 for the respective axis), every output position receives
    index 0, for every mode. -/
theorem c7_reduce_extent_one (mode bs : Nat) (inp out0 ws0 : Mem) :
    (∀ c h w, 1 ≤ c → 1 ≤ h → 1 ≤ w → ∀ p, p < (c + 3) / 4 * 4 * h * w →
      (exec 0 mode bs 1 c h w inp out0 ws0).out p = 0) ∧
    (∀ n h w, 1 ≤ n → 1 ≤ h → 1 ≤ w → ∀ i s l, i < n → s < h * w → l < 4 →
      (exec 1 mode bs n 1 h w inp out0 ws0).out
        (i * (h * w * 4) + 4 * s + l) = 0) ∧
    (∀ n c w, 1 ≤ n → 1 ≤ c → 1 ≤ w → ∀ i p,
      i < n * ((c + 3) / 4 * 4) / 4 → p < w * 4 →
      (exec 2 mode bs n c 1 w inp out0 ws0).out (i * (w * 4) + p) = 0) ∧
    (∀ n c h, 1 ≤ n → 1 ≤ c → 1 ≤ h → ∀ i l,
      i < n * ((c + 3) / 4) * h → l < 4 →
      (exec 3 mode bs n c h 1 inp out0 ws0).out (i * 4 + l) = 0) := by
  refine ⟨fun c h w hc hh hw p hp => ?_, fun n h w hn hh hw i s l hi hs hl => ?_,
    fun n c w hn hc hw i p hi hp => ?_, fun n c h hn hc hh i l hi hl => ?_⟩
  · rw [exec_axis0_out mode bs 1 c h w inp out0 ws0 (by norm_num) p hp,
      naiveArgExt_one]
    simp
  · rw [exec_axis1_at_group mode bs n 1 h w inp out0 ws0 (by norm_num) i s hi hs
      l hl, naiveArgExt_one]
    by_cases hl0 : l = 0
    · rw [if_pos hl0]
      simp
    · rw [if_neg hl0]
  · rw [exec_axis2_out mode bs n c 1 w inp out0 ws0 (by norm_num) i p hi hp,
      naiveArgExt_one]
    simp
  · have hq : i * 4 + l < 4 * (n * ((c + 3) / 4) * h) := by
      have h2 : (i + 1) * 4 ≤ n * ((c + 3) / 4) * h * 4 :=
        Nat.mul_le_mul_right 4 (by omega)
      have h3 : n * ((c + 3) / 4) * h * 4 = 4 * (n * ((c + 3) / 4) * h) := by
        ring
      omega
    rw [exec_axis3_out mode bs n c h 1 inp out0 ws0 (by norm_num) _ hq,
      naiveArgExt_one]
    simp

/-- C7 witness: batch axis with a single batch at a concrete tensor. -/
theorem c7_witness :
    (exec 0 0 4 1 3 2 2 (fun q => (7 : Int) - (q : Int)) (fun _ => 0)
      (fun _ => 0)).out 0 = 0 :=
  (c7_reduce_extent_one 0 4 (fun q => (7 : Int) - (q : Int)) (fun _ => 0)
    (fun _ => 0)).1 3 2 2 (by norm_num) (by norm_num) (by norm_num) 0
    (by norm_num)

/-- C8: for every axis and mode, negating every input value and swapping
    the mode (min to max or max to min, `1 - mode`) yields exactly the same
    output tensor of winning indices. -/
theorem c8_negation_swaps_mode (mode bs n c h w axis : Nat)
    (inp out0 ws0 : Mem) (hn : 1 ≤ n) (hc : 1 ≤ c) (hh : 1 ≤ h) (hw : 1 ≤ w)
    (haxis : axis < 4) :
    (exec axis mode bs n c h w (fun x => -(inp x)) out0 ws0).out =
      (exec axis (1 - mode) bs n c h w inp out0 ws0).out := by
  funext q
  interval_cases axis
  · by_cases hq : q < (c + 3) / 4 * 4 * h * w
    · rw [exec_axis0_out mode bs n c h w (fun x => -(inp x)) out0 ws0 hn q hq,
        exec_axis0_out (1 - mode) bs n c h w inp out0 ws0 hn q hq]
      congr 1
      exact naiveArgExt_neg mode
        (fun r => inp (r * ((c + 3) / 4 * 4 * h * w) + q)) n hn
    · rw [exec_axis0_untouched mode bs n c h w (fun x => -(inp x)) out0 ws0 q
        (by omega),
        exec_axis0_untouched (1 - mode) bs n c h w inp out0 ws0 q (by omega)]
  · by_cases hq : q < n * (h * w * 4)
    · rw [exec_axis1_out mode bs n c h w (fun x => -(inp x)) out0 ws0 hc q hq,
        exec_axis1_out (1 - mode) bs n c h w inp out0 ws0 hc q hq]
      by_cases h4 : q % 4 = 0
      · rw [if_pos h4, if_pos h4]
        congr 1
        exact naiveArgExt_neg mode
          (chanVals inp (q / (h * w * 4) * ((c + 3) / 4) * (h * w * 4) +
            4 * (q % (h * w * 4) / 4)) (h * w * 4)) c hc
      · rw [if_neg h4, if_neg h4]
    · rw [exec_axis1_untouched mode bs n c h w (fun x => -(inp x)) out0 ws0 q
        (by omega),
        exec_axis1_untouched (1 - mode) bs n c h w inp out0 ws0 q (by omega)]
  · by_cases hq : q < n * ((c + 3) / 4 * 4) / 4 * (w * 4)
    · have hw4 : 0 < w * 4 := by omega
      have hsplit := Nat.div_add_mod q (w * 4)
      have hcom : w * 4 * (q / (w * 4)) = q / (w * 4) * (w * 4) := mul_comm _ _
      have hqi : q / (w * 4) < n * ((c + 3) / 4 * 4) / 4 :=
        (Nat.div_lt_iff_lt_mul hw4).2 (by omega)
      have hqp : q % (w * 4) < w * 4 := Nat.mod_lt _ hw4
      have hqe : q = q / (w * 4) * (w * 4) + q % (w * 4) := by omega
      have e1 := congrArg
        (exec 2 mode bs n c h w (fun x => -(inp x)) out0 ws0).out hqe
      have e2 := congrArg (exec 2 (1 - mode) bs n c h w inp out0 ws0).out hqe
      rw [e1, e2,
        exec_axis2_out mode bs n c h w (fun x => -(inp x)) out0 ws0 hh _ _
          hqi hqp,
        exec_axis2_out (1 - mode) bs n c h w inp out0 ws0 hh _ _ hqi hqp]
      congr 1
      exact naiveArgExt_neg mode
        (fun r => inp (q / (w * 4) * h * (w * 4) + r * (w * 4) + q % (w * 4)))
        h hh
    · rw [exec_axis2_untouched mode bs n c h w (fun x => -(inp x)) out0 ws0 q
        (by omega),
        exec_axis2_untouched (1 - mode) bs n c h w inp out0 ws0 q (by omega)]
  · by_cases hq : q < 4 * (n * ((c + 3) / 4) * h)
    · rw [exec_axis3_out mode bs n c h w (fun x => -(inp x)) out0 ws0 hw q hq,
        exec_axis3_out (1 - mode) bs n c h w inp out0 ws0 hw q hq]
      congr 1
      exact naiveArgExt_neg mode
        (fun r => inp (q / 4 * w * 4 + r * 4 + q % 4)) w hw
    · rw [exec_axis3_untouched mode bs n c h w (fun x => -(inp x)) out0 ws0 q
        (by omega),
        exec_axis3_untouched (1 - mode) bs n c h w inp out0 ws0 q (by omega)]

/-- C8 witness: negated `[2,5,5]` under argmin agrees with `[2,5,5]` under
    argmax at the first output position. -/
theorem c8_witness :
    (exec 3 0 4 1 4 1 3
      (fun x => -((fun q => if q < 4 then (2 : Int) else 5) x)) (fun _ => 0)
      (fun _ => 0)).out 0 =
    (exec 3 (1 - 0) 4 1 4 1 3 (fun q => if q < 4 then (2 : Int) else 5)
      (fun _ => 0) (fun _ => 0)).out 0 :=
  congrFun (c8_negation_swaps_mode 0 4 1 4 1 3 3
    (fun q => if q < 4 then (2 : Int) else 5) (fun _ => 0) (fun _ => 0)
    (by norm_num) (by norm_num) (by norm_num) (by norm_num) (by norm_num)) 0

/-- C10: on every successful call every written output value is a
    non-negative whole number bounded by the reduce extent minus 1; for the
    channel axis lane 0 of each group holds an index at most `C - 1` and
    lanes 1..3 are zero. -/
theorem c10_output_indices_in_range (mode bs n c h w : Nat)
    (inp out0 ws0 : Mem) (hn : 1 ≤ n) (hc : 1 ≤ c) (hh : 1 ≤ h) (hw : 1 ≤ w) :
    (∀ p, p < (c + 3) / 4 * 4 * h * w →
      ∃ j : Nat, j ≤ n - 1 ∧
        (exec 0 mode bs n c h w inp out0 ws0).out p = ((j : Nat) : Int)) ∧
    (∀ i s, i < n → s < h * w →
      (∃ j : Nat, j ≤ c - 1 ∧
        (exec 1 mode bs n c h w inp out0 ws0).out
          (i * (h * w * 4) + 4 * s + 0) = ((j : Nat) : Int)) ∧
      (∀ l, 1 ≤ l → l < 4 →
        (exec 1 mode bs n c h w inp out0 ws0).out
          (i * (h * w * 4) + 4 * s + l) = 0)) ∧
    (∀ i p, i < n * ((c + 3) / 4 * 4) / 4 → p < w * 4 →
      ∃ j : Nat, j ≤ h - 1 ∧
        (exec 2 mode bs n c h w inp out0 ws0).out (i * (w * 4) + p) =
          ((j : Nat) : Int)) ∧
    (∀ i l, i < n * ((c + 3) / 4) * h → l < 4 →
      ∃ j : Nat, j ≤ w - 1 ∧
        (exec 3 mode bs n c h w inp out0 ws0).out (i * 4 + l) =
          ((j : Nat) : Int)) := by
  refine ⟨fun p hp => ?_, fun i s hi hs => ⟨?_, fun l hl1 hl4 => ?_⟩,
    fun i p hi hp => ?_, fun i l hi hl => ?_⟩
  · refine ⟨naiveArgExt mode
      (fun r => inp (r * ((c + 3) / 4 * 4 * h * w) + p)) n, ?_, ?_⟩
    · have := naiveArgExt_lt mode
        (fun r => inp (r * ((c + 3) / 4 * 4 * h * w) + p)) n hn
      omega
    · exact exec_axis0_out mode bs n c h w inp out0 ws0 hn p hp
  · refine ⟨naiveArgExt mode (chanVals inp
      (i * ((c + 3) / 4) * (h * w * 4) + 4 * s) (h * w * 4)) c, ?_, ?_⟩
    · have := naiveArgExt_lt mode (chanVals inp
        (i * ((c + 3) / 4) * (h * w * 4) + 4 * s) (h * w * 4)) c hc
      omega
    · rw [exec_axis1_at_group mode bs n c h w inp out0 ws0 hc i s hi hs 0
        (by omega), if_pos rfl]
  · rw [exec_axis1_at_group mode bs n c h w inp out0 ws0 hc i s hi hs l
      (by omega), if_neg (by omega)]
  · refine ⟨naiveArgExt mode
      (fun r => inp (i * h * (w * 4) + r * (w * 4) + p)) h, ?_, ?_⟩
    · have := naiveArgExt_lt mode
        (fun r => inp (i * h * (w * 4) + r * (w * 4) + p)) h hh
      omega
    · exact exec_axis2_out mode bs n c h w inp out0 ws0 hh i p hi hp
  · have hq : i * 4 + l < 4 * (n * ((c + 3) / 4) * h) := by
      have h2 : (i + 1) * 4 ≤ n * ((c + 3) / 4) * h * 4 :=
        Nat.mul_le_mul_right 4 (by omega)
      have h3 : n * ((c + 3) / 4) * h * 4 = 4 * (n * ((c + 3) / 4) * h) := by
        ring
      omega
    refine ⟨naiveArgExt mode
      (fun r => inp ((i * 4 + l) / 4 * w * 4 + r * 4 + (i * 4 + l) % 4)) w,
      ?_, ?_⟩
    · have := naiveArgExt_lt mode
        (fun r => inp ((i * 4 + l) / 4 * w * 4 + r * 4 + (i * 4 + l) % 4)) w hw
      omega
    · exact exec_axis3_out mode bs n c h w inp out0 ws0 hw _ hq

/-- C10 witness: a 1×1×1×1 tensor reports index 0 ≤ 0 at position 0. -/
theorem c10_witness :
    ∃ j : Nat, j ≤ 1 - 1 ∧
      (exec 0 0 4 1 1 1 1 (fun q => (q : Int)) (fun _ => 0)
        (fun _ => 0)).out 0 = ((j : Nat) : Int) :=
  (c10_output_indices_in_range 0 4 1 1 1 1 (fun q => (q : Int)) (fun _ => 0)
    (fun _ => 0) (by norm_num) (by norm_num) (by norm_num) (by norm_num)).1 0
    (by norm_num)

end TNNArg
